import Mathlib

/-!
Verification of `triad/collections/dict.py`: a shallow embedding of
`IndexedOrderedDict` (an `OrderedDict` subclass with lazy positional index
caches) and `ParamDict` (its string-keyed configuration variant), together
with proofs and refutations of the specified properties.

Modelling conventions:
* An `OrderedDict` is an insertion-ordered association list with unique keys.
* Stateful operations return the successor state; fallible ones additionally
  return `Except Err α`.  When a Python method mutates before raising (for
  example `pop` sets `_need_reindex` before delegating), the returned state
  carries that mutation, matching Python exception semantics.
* `Err` is the spec's error taxonomy; each constructor documents the concrete
  Python exception(s) it stands for in the source.
* `copy.deepcopy` is passed in as an explicit function argument `dc` wherever
  the source calls it, so the `deep` flag's effect stays visible.
-/

namespace Triad

/-- The spec's error taxonomy.  Concrete Python exceptions raised by the
source map onto it as follows:
* `keyNotFound`: `KeyError` from a key lookup / `pop` / `popitem` / `move_to_end`;
* `indexOutOfRange`: `IndexError` from subscripting `_index_key`;
* `typeError`: `TypeError` from the `as_type` coercion collaborator, and the
  `AssertionError` of `ParamDict.__setitem__`'s `assert isinstance(key, str)`
  (the spec's taxonomy files both under its `TypeError` category);
* `duplicateKey`: the `KeyError("... exists in dict")` of `update` under `THROW`;
* `invalidArgument`: the `ValueError` of `update` for an unsupported `on_dup`,
  and the `NoneArgumentError` of `assert_arg_not_none` in `get`. -/
inductive Err where
  | keyNotFound
  | indexOutOfRange
  | typeError
  | duplicateKey
  | invalidArgument
deriving DecidableEq, Repr

/-- Python scalar values, enough to model keys and configuration values. -/
inductive PyVal where
  | vNone
  | vBool (b : Bool)
  | vInt (n : Int)
  | vStr (s : String)
deriving DecidableEq, Repr

/-- Python runtime types of `PyVal`, the possible results of `type(x)`. -/
inductive PyType where
  | tNone
  | tBool
  | tInt
  | tStr
deriving DecidableEq, Repr

/-- `type(v)` for a scalar value. -/
def PyVal.typeOf : PyVal → PyType
  | .vNone => .tNone
  | .vBool _ => .tBool
  | .vInt _ => .tInt
  | .vStr _ => .tStr

/-- `isinstance(v, str)`. -/
def PyVal.isStr : PyVal → Bool
  | .vStr _ => true
  | _ => false

/-- State of an `IndexedOrderedDict`: the ordered entries of the underlying
`OrderedDict` plus the three index-cache fields set up in `__init__`
(`_need_reindex`, `_index_key`, `_key_index`). -/
structure IndexedOrderedDict (K V : Type) where
  entries : List (K × V)
  need_reindex : Bool
  index_key : List K
  key_index : List (K × Nat)
deriving DecidableEq, Repr

namespace IndexedOrderedDict

variable {K V : Type} [DecidableEq K]

/-- `IndexedOrderedDict()`: empty entries, `_need_reindex = True`, empty caches. -/
def empty : IndexedOrderedDict K V :=
  { entries := [], need_reindex := true, index_key := [], key_index := [] }

/-- First-match association-list lookup (dict lookup; keys are unique). -/
def alookup (k : K) : List (K × α) → Option α
  | [] => none
  | (k2, v) :: rest => if k2 = k then some v else alookup k rest

/-- `self[key]` as an `Option`. -/
def lookup (d : IndexedOrderedDict K V) (k : K) : Option V :=
  alookup k d.entries

/-- `key in self`. -/
def containsKey (d : IndexedOrderedDict K V) (k : K) : Bool :=
  (d.lookup k).isSome

/-- `list(self.keys())`. -/
def keys (d : IndexedOrderedDict K V) : List K :=
  d.entries.map Prod.fst

/-- `OrderedDict` item assignment on the entry list: an existing key keeps its
position (and original key object) with the value replaced; a new key is
appended at the end. -/
def odSet (k : K) (v : V) : List (K × V) → List (K × V)
  | [] => [(k, v)]
  | (k2, v2) :: rest => if k2 = k then (k2, v) :: rest else (k2, v2) :: odSet k v rest

/-- Removal of a key from the entry list (no-op when absent). -/
def odDel (k : K) : List (K × V) → List (K × V)
  | [] => []
  | (k2, v2) :: rest => if k2 = k then rest else (k2, v2) :: odDel k rest

/-- `IndexedOrderedDict.__setitem__`: `self._need_reindex = key not in self`
(evaluated on the pre-state, overwriting the previous flag), then the
`OrderedDict` assignment.  The cache lists are not touched. -/
def setitem (d : IndexedOrderedDict K V) (k : K) (v : V) : IndexedOrderedDict K V :=
  { d with need_reindex := !(d.containsKey k), entries := odSet k v d.entries }

/-- `IndexedOrderedDict.__delitem__`: sets `_need_reindex = True` first, then
delegates; an absent key raises `KeyError` with the flag already set. -/
def delitem (d : IndexedOrderedDict K V) (k : K) :
    IndexedOrderedDict K V × Except Err Unit :=
  let d1 := { d with need_reindex := true }
  if d1.containsKey k then ({ d1 with entries := odDel k d1.entries }, .ok ())
  else (d1, .error .keyNotFound)

/-- `IndexedOrderedDict.clear`: sets `_need_reindex = True`, then clears. -/
def clear (d : IndexedOrderedDict K V) : IndexedOrderedDict K V :=
  { d with need_reindex := true, entries := [] }

/-- `IndexedOrderedDict.copy`: `super().copy()` rebuilds the same entries (a
shallow copy: the clone's values are the very objects of the original), then
the flag and both cache lists are copied over from `self`.  `_build_index` is
never called, so no rebuild happens on either side. -/
def copy (d : IndexedOrderedDict K V) : IndexedOrderedDict K V :=
  { entries := d.entries, need_reindex := d.need_reindex,
    index_key := d.index_key, key_index := d.key_index }

/-- `IndexedOrderedDict.popitem`: sets `_need_reindex = True`, then removes and
returns the last (`last = true`) or first entry; `KeyError` when empty. -/
def popitem (d : IndexedOrderedDict K V) (last : Bool) :
    IndexedOrderedDict K V × Except Err (K × V) :=
  let d1 := { d with need_reindex := true }
  if last then
    match d1.entries.getLast? with
    | none => (d1, .error .keyNotFound)
    | some p => ({ d1 with entries := d1.entries.dropLast }, .ok p)
  else
    match d1.entries with
    | [] => (d1, .error .keyNotFound)
    | p :: rest => ({ d1 with entries := rest }, .ok p)

/-- `IndexedOrderedDict.pop` (single-argument form): sets `_need_reindex = True`,
then removes and returns the value; `KeyError` (flag kept set) when absent. -/
def pop (d : IndexedOrderedDict K V) (k : K) :
    IndexedOrderedDict K V × Except Err V :=
  let d1 := { d with need_reindex := true }
  match d1.lookup k with
  | none => (d1, .error .keyNotFound)
  | some v => ({ d1 with entries := odDel k d1.entries }, .ok v)

/-- `IndexedOrderedDict.move_to_end`: sets `_need_reindex = True`, then moves
the entry to the end (`last = true`) or the front; `KeyError` when absent. -/
def move_to_end (d : IndexedOrderedDict K V) (k : K) (last : Bool) :
    IndexedOrderedDict K V × Except Err Unit :=
  let d1 := { d with need_reindex := true }
  match d1.lookup k with
  | none => (d1, .error .keyNotFound)
  | some v =>
    if last then ({ d1 with entries := odDel k d1.entries ++ [(k, v)] }, .ok ())
    else ({ d1 with entries := (k, v) :: odDel k d1.entries }, .ok ())

/-- `IndexedOrderedDict._build_index`: when the flag is set, snapshot
`_index_key = list(self.keys())` and `_key_index = {x: i for i, x in
enumerate(self._index_key)}` (keys of a dict are pairwise distinct, so the
comprehension is a plain inversion), then clear the flag; otherwise no-op. -/
def build_index (d : IndexedOrderedDict K V) : IndexedOrderedDict K V :=
  if d.need_reindex then
    { d with index_key := d.keys,
             key_index := d.keys.enum.map (fun p => (p.2, p.1)),
             need_reindex := false }
  else d

/-- Python list subscription with an `int` index: indices in `[0, len)` are
direct, indices in `[-len, -1]` count from the end, anything else raises
`IndexError`. -/
def pyListGet (xs : List α) (i : Int) : Except Err α :=
  if 0 ≤ i then
    match xs.get? i.toNat with
    | some a => .ok a
    | none => .error .indexOutOfRange
  else if i + (xs.length : Int) < 0 then .error .indexOutOfRange
  else
    match xs.get? (i + (xs.length : Int)).toNat with
    | some a => .ok a
    | none => .error .indexOutOfRange

/-- `IndexedOrderedDict.index_of_key`: `_build_index()` then `_key_index[key]`
(`KeyError` when absent). -/
def index_of_key (d : IndexedOrderedDict K V) (k : K) :
    IndexedOrderedDict K V × Except Err Nat :=
  let d1 := d.build_index
  match alookup k d1.key_index with
  | some i => (d1, .ok i)
  | none => (d1, .error .keyNotFound)

/-- `IndexedOrderedDict.get_key_by_index`: `_build_index()` then
`_index_key[index]`. -/
def get_key_by_index (d : IndexedOrderedDict K V) (i : Int) :
    IndexedOrderedDict K V × Except Err K :=
  let d1 := d.build_index
  (d1, pyListGet d1.index_key i)

/-- `IndexedOrderedDict.get_value_by_index`: resolve the key, then `self[key]`. -/
def get_value_by_index (d : IndexedOrderedDict K V) (i : Int) :
    IndexedOrderedDict K V × Except Err V :=
  match d.get_key_by_index i with
  | (d1, .error e) => (d1, .error e)
  | (d1, .ok k) =>
    match d1.lookup k with
    | some v => (d1, .ok v)
    | none => (d1, .error .keyNotFound)

/-- `IndexedOrderedDict.get_item_by_index`: resolve the key, then
`(key, self[key])`. -/
def get_item_by_index (d : IndexedOrderedDict K V) (i : Int) :
    IndexedOrderedDict K V × Except Err (K × V) :=
  match d.get_key_by_index i with
  | (d1, .error e) => (d1, .error e)
  | (d1, .ok k) =>
    match d1.lookup k with
    | some v => (d1, .ok (k, v))
    | none => (d1, .error .keyNotFound)

/-- `IndexedOrderedDict.set_value_by_index`: resolve the key, then
`self[key] = value`. -/
def set_value_by_index (d : IndexedOrderedDict K V) (i : Int) (v : V) :
    IndexedOrderedDict K V × Except Err Unit :=
  match d.get_key_by_index i with
  | (d1, .error e) => (d1, .error e)
  | (d1, .ok k) => (d1.setitem k v, .ok ())

/-- `IndexedOrderedDict.pop_by_index`: resolve the key, then
`(key, self.pop(key))`. -/
def pop_by_index (d : IndexedOrderedDict K V) (i : Int) :
    IndexedOrderedDict K V × Except Err (K × V) :=
  match d.get_key_by_index i with
  | (d1, .error e) => (d1, .error e)
  | (d1, .ok k) =>
    match d1.pop k with
    | (d2, .ok v) => (d2, .ok (k, v))
    | (d2, .error e) => (d2, .error e)

/-- The right-hand side of `equals`, before normalization: Python distinguishes
`OrderedDict` instances, other `dict` instances, and everything else the
key/value-iterable adapter accepts.  Each carries the ordered pair sequence
`to_kv_iterable` would produce for it (for the two dict forms, their items in
iteration order; `to_kv_iterable` of a mapping yields exactly those). -/
inductive KVOther (K V : Type) where
  | omap (ps : List (K × V))
  | pmap (ps : List (K × V))
  | kvsrc (ps : List (K × V))

/-- `OrderedDict(pairs)` (equally `dict(pairs)`): left-to-right insertion, so a
repeated key keeps its first position and takes its last value. -/
def odFromPairs [DecidableEq K] (ps : List (K × V)) : List (K × V) :=
  ps.foldl (fun acc p => odSet p.1 p.2 acc) []

/-- Python `dict` equality on entry lists (CPython `dict_equal`): equal sizes
and every entry of the left side is present, with an equal value, on the
right. -/
def dictEqb [DecidableEq K] [DecidableEq V] (xs ys : List (K × V)) : Bool :=
  xs.length == ys.length && xs.all (fun p => alookup p.1 ys == some p.2)

/-- `IndexedOrderedDict.equals`.  With `with_order`, `self == other` compares
two `OrderedDict`s (equal exactly when their item sequences coincide), after
wrapping a non-`OrderedDict` operand as `OrderedDict(to_kv_iterable(other))`;
without, the comparison is plain `dict` equality, wrapping as
`dict(to_kv_iterable(other))` unless the operand already is a plain `dict`. -/
def equals [DecidableEq V] (d : IndexedOrderedDict K V)
    (other : KVOther K V) (with_order : Bool) : Bool :=
  if with_order then
    match other with
    | .omap ps => d.entries == ps
    | .pmap ps => d.entries == odFromPairs ps
    | .kvsrc ps => d.entries == odFromPairs ps
  else
    match other with
    | .omap ps => dictEqb d.entries (odFromPairs ps)
    | .pmap ps => dictEqb d.entries ps
    | .kvsrc ps => dictEqb d.entries (odFromPairs ps)

end IndexedOrderedDict

/-- A `ParamDict` is an `IndexedOrderedDict` whose keys are Python values; the
string-key constraint is enforced dynamically by `ParamDict.setitem`, exactly
as in the source. -/
abbrev ParamDict (V : Type) := IndexedOrderedDict PyVal V

namespace ParamDict

variable {V : Type}

/-- `ParamDict.OVERWRITE`. -/
def OVERWRITE : Int := 0

/-- `ParamDict.THROW`. -/
def THROW : Int := 1

/-- `ParamDict.IGNORE`. -/
def IGNORE : Int := 2

/-- `ParamDict.__setitem__`: `assert isinstance(key, str)` (its failure is the
spec taxonomy's `typeError`), then the base `__setitem__`.  On failure the
state is untouched: the assert precedes every mutation. -/
def setitem (d : ParamDict V) (k : PyVal) (v : V) :
    ParamDict V × Except Err Unit :=
  if k.isStr then (IndexedOrderedDict.setitem d k v, .ok ())
  else (d, .error .typeError)

/-- `ParamDict.update`, applied to the ordered pair sequence the
`to_kv_iterable` adapter produced from `other`.  `dc` models `copy.deepcopy`.
Pairs are processed left to right against the current state; the returned
state carries every mutation made before a failure. -/
def update (d : ParamDict V) (pairs : List (PyVal × V)) (on_dup : Int)
    (deep : Bool) (dc : V → V) : ParamDict V × Except Err Unit :=
  match pairs with
  | [] => (d, .ok ())
  | (k, v) :: rest =>
    if on_dup == OVERWRITE || !(IndexedOrderedDict.containsKey d k) then
      match setitem d k (if deep then dc v else v) with
      | (d1, .ok _) => update d1 rest on_dup deep dc
      | (d1, .error e) => (d1, .error e)
    else if on_dup == THROW then (d, .error .duplicateKey)
    else if on_dup == IGNORE then update d rest on_dup deep dc
    else (d, .error .invalidArgument)

/-- `ParamDict.__init__`: start from the empty base state, then
`self.update(data, deep=deep)` (default policy `OVERWRITE`) on the
adapter-normalized pairs of `data`. -/
def init (pairs : List (PyVal × V)) (deep : Bool) (dc : V → V) :
    ParamDict V × Except Err Unit :=
  update IndexedOrderedDict.empty pairs OVERWRITE deep dc

/-- Modelled from the spec: `assert_arg_not_none` (in `triad.utils.assertion`,
not under `src/`) is the argument-validation helper that fails when its
argument is the null sentinel; the spec taxonomy calls that failure
`invalidArgument` (the concrete exception is `NoneArgumentError`). -/
def assert_arg_not_none (v : PyVal) : Except Err Unit :=
  if v = PyVal.vNone then .error .invalidArgument else .ok ()

/-- `ParamDict.get`: validate `default`, then coerce the stored value to
`type(default)` via the `as_type` collaborator when the key is present, else
return `default`.  `as_type` (in `triad.utils.convert`, out of scope per the
spec) is passed in abstractly. -/
def get (as_type : PyVal → PyType → Except Err PyVal) (d : ParamDict PyVal)
    (key : PyVal) (default : PyVal) : Except Err PyVal :=
  match assert_arg_not_none default with
  | .error e => .error e
  | .ok _ =>
    match IndexedOrderedDict.lookup d key with
    | some v => as_type v (PyVal.typeOf default)
    | none => .ok default

end ParamDict

/-! ### JSON values and text

`ParamDict.to_json_str` serializes the dictionary with `json.dumps`; the
spec's round-trip property feeds that text back through the key/value iterable
adapter's JSON-object ingestion (`json.loads`).  JSON-representable scalar
values are modelled by `JVal`; `json.dumps` output is reproduced exactly for
strings of printable ASCII characters (`jsonSafeChar`), where the only escapes
it emits are `\"` and `\\`. -/

/-- A JSON-representable scalar value. -/
inductive JVal where
  | jnull
  | jbool (b : Bool)
  | jint (n : Int)
  | jstr (s : String)
deriving DecidableEq, Repr

/-- The character of decimal digit `k < 10`. -/
def digitChar (k : Nat) : Char := Char.ofNat ('0'.toNat + k)

/-- Decimal digits of `n`, most significant first; `fuel`-structured so that it
reduces by kernel computation (`fuel > n` makes the first branch total). -/
def natDigitsAux : Nat → Nat → List Char
  | 0, n => [digitChar (n % 10)]
  | fuel + 1, n =>
    if n < 10 then [digitChar n]
    else natDigitsAux fuel (n / 10) ++ [digitChar (n % 10)]

/-- Decimal digit characters of `n`, most significant first (`str(n)`). -/
def natDigits (n : Nat) : List Char := natDigitsAux (n + 1) n

/-- Characters of a Python `int` under `str`/`json.dumps`: an optional minus
sign, then the decimal digits of the absolute value. -/
def intChars (i : Int) : List Char :=
  if i < 0 then '-' :: natDigits i.natAbs else natDigits i.natAbs

/-- Decimal digit character test. -/
def isDigitCh (c : Char) : Bool := 48 ≤ c.toNat && c.toNat ≤ 57

/-- Numeric value of a digit character. -/
def digitVal (c : Char) : Nat := c.toNat - 48

/-- Value of a most-significant-first digit string. -/
def digitsToNat (ds : List Char) : Nat :=
  ds.foldl (fun acc c => acc * 10 + digitVal c) 0

/-- Printable ASCII: the characters `json.dumps` emits verbatim or (for `"`
and `\`) with a one-character escape; outside this range it would switch to
`\uXXXX`/control escapes, which the model does not reproduce. -/
def jsonSafeChar (c : Char) : Bool := 32 ≤ c.toNat && c.toNat ≤ 126

/-- `json.dumps` escaping of one string character (printable-ASCII range). -/
def escapeChar (c : Char) : List Char :=
  if c = '"' || c = '\\' then ['\\', c] else [c]

/-- `json.dumps` escaping of a character sequence. -/
def escapeList : List Char → List Char
  | [] => []
  | c :: rest => escapeChar c ++ escapeList rest

/-- A JSON string literal: quote, escaped characters, quote. -/
def strChars (s : String) : List Char := '"' :: (escapeList s.toList ++ ['"'])

/-- `json.dumps` of one scalar value. -/
def dumpJVal : JVal → List Char
  | .jnull => ['n', 'u', 'l', 'l']
  | .jbool true => ['t', 'r', 'u', 'e']
  | .jbool false => ['f', 'a', 'l', 's', 'e']
  | .jint n => intChars n
  | .jstr s => strChars s

/-- One `"key":value` member in the compact form (separators `","`, `":"`). -/
def entryCompact (p : String × JVal) : List Char :=
  strChars p.1 ++ ':' :: dumpJVal p.2

/-- The members of the compact form, joined by `","`. -/
def entriesCompact : List (String × JVal) → List Char
  | [] => []
  | [p] => entryCompact p
  | p :: q :: rest => entryCompact p ++ ',' :: entriesCompact (q :: rest)

/-- `json.dumps(self, separators=(",", ":"))` of an object. -/
def dumpsCompact (ps : List (String × JVal)) : List Char :=
  '{' :: (entriesCompact ps ++ ['}'])

/-- One member in the pretty form: a fixed four-space indent, then
`"key": value` (key separator `": "`). -/
def entryPretty (p : String × JVal) : List Char :=
  ' ' :: ' ' :: ' ' :: ' ' :: (strChars p.1 ++ ':' :: ' ' :: dumpJVal p.2)

/-- The members of the pretty form, joined by `",\n"`. -/
def entriesPretty : List (String × JVal) → List Char
  | [] => []
  | [p] => entryPretty p
  | p :: q :: rest => entryPretty p ++ ',' :: '\n' :: entriesPretty (q :: rest)

/-- `json.dumps(self, indent=4)` of an object: `{}` when empty, otherwise the
brace lines enclose one indented member line per entry. -/
def dumpsPretty (ps : List (String × JVal)) : List Char :=
  match ps with
  | [] => ['{', '}']
  | _ => '{' :: '\n' :: (entriesPretty ps ++ '\n' :: ['}'])

/-- The string carried by a `ParamDict` key (keys are strings by the class
invariant, which the serialization theorems assume as a hypothesis). -/
def keyStr : PyVal → String
  | .vStr s => s
  | _ => ""

/-- `ParamDict.to_json_str`: `json.dumps(self, separators=(",", ":"))` when
`indent` is unset, else `json.dumps(self, indent=4)`. -/
def ParamDict.to_json_str (d : ParamDict JVal) (indent : Bool) : String :=
  if !indent then
    String.mk (dumpsCompact (d.entries.map (fun p => (keyStr p.1, p.2))))
  else
    String.mk (dumpsPretty (d.entries.map (fun p => (keyStr p.1, p.2))))

/-! ### JSON parsing (the adapter's JSON-object ingestion) -/

/-- JSON whitespace. -/
def isWsCh (c : Char) : Bool := c = ' ' || c = '\t' || c = '\n' || c = '\r'

/-- Drop leading JSON whitespace. -/
def skipWs : List Char → List Char
  | [] => []
  | c :: rest => if isWsCh c then skipWs rest else c :: rest

/-- Inverse of a one-character JSON escape. -/
def unescapeChar (c : Char) : Option Char :=
  if c = '"' || c = '\\' || c = '/' then some c
  else if c = 'n' then some '\n'
  else if c = 't' then some '\t'
  else if c = 'r' then some '\r'
  else none

/-- Parse the body of a string literal (after the opening quote), returning
its characters and the text after the closing quote. -/
def parseStrBody : List Char → Option (List Char × List Char)
  | [] => none
  | c :: rest =>
    if c = '"' then some ([], rest)
    else if c = '\\' then
      match rest with
      | [] => none
      | e :: rest2 =>
        match unescapeChar e, parseStrBody rest2 with
        | some c2, some (s, r) => some (c2 :: s, r)
        | _, _ => none
    else
      match parseStrBody rest with
      | some (s, r) => some (c :: s, r)
      | none => none

/-- Split off the leading run of decimal digits. -/
def takeDigits : List Char → List Char × List Char
  | [] => ([], [])
  | c :: rest =>
    if isDigitCh c then
      let p := takeDigits rest
      (c :: p.1, p.2)
    else ([], c :: rest)

/-- Parse one scalar JSON value. -/
def parseJVal (cs : List Char) : Option (JVal × List Char) :=
  match cs with
  | [] => none
  | c :: rest =>
    if c = 'n' then
      match rest with
      | 'u' :: 'l' :: 'l' :: r => some (.jnull, r)
      | _ => none
    else if c = 't' then
      match rest with
      | 'r' :: 'u' :: 'e' :: r => some (.jbool true, r)
      | _ => none
    else if c = 'f' then
      match rest with
      | 'a' :: 'l' :: 's' :: 'e' :: r => some (.jbool false, r)
      | _ => none
    else if c = '"' then
      match parseStrBody rest with
      | some (s, r) => some (.jstr (String.mk s), r)
      | none => none
    else if c = '-' then
      let p := takeDigits rest
      if p.1.isEmpty then none
      else some (.jint (-(digitsToNat p.1 : Int)), p.2)
    else if isDigitCh c then
      let p := takeDigits (c :: rest)
      if p.1.isEmpty then none
      else some (.jint ((digitsToNat p.1 : Int)), p.2)
    else none

/-- Parse the members of an object after its opening brace, consuming the
closing brace.  `fuel` bounds the number of members (one is consumed per
recursive step, so any fuel above the member count is enough). -/
def parseEntries : Nat → List Char → Option (List (String × JVal) × List Char)
  | 0, _ => none
  | fuel + 1, cs =>
    match skipWs cs with
    | [] => none
    | c :: rest =>
      if c = '"' then
        match parseStrBody rest with
        | none => none
        | some (k, rest1) =>
          match skipWs rest1 with
          | [] => none
          | c1 :: rest2 =>
            if c1 = ':' then
              match parseJVal (skipWs rest2) with
              | none => none
              | some (v, rest3) =>
                match skipWs rest3 with
                | [] => none
                | c2 :: rest4 =>
                  if c2 = ',' then
                    match parseEntries fuel rest4 with
                    | some (ps, r) => some ((String.mk k, v) :: ps, r)
                    | none => none
                  else if c2 = '}' then some ([(String.mk k, v)], rest4)
                  else none
            else none
      else none

/-- Modelled from the spec: the key/value iterable adapter's JSON-object-text
ingestion (`to_kv_iterable` is not under `src/`): standard JSON parsing of an
object (`json.loads`), yielding the object's key/value pairs in textual
order. -/
def loadsObj (s : String) : Option (List (String × JVal)) :=
  match skipWs s.toList with
  | [] => none
  | c :: rest =>
    if c = '{' then
      match skipWs rest with
      | [] => none
      | c2 :: rest2 =>
        if c2 = '}' then (if (skipWs rest2).isEmpty then some [] else none)
        else
          match parseEntries (rest.length + 1) rest with
          | some (ps, r) => if (skipWs r).isEmpty then some ps else none
          | none => none
    else none

/-- A remainder that cannot extend a decimal number: empty, or headed by a
character that is not a digit. -/
def numStop : List Char → Bool
  | [] => true
  | c :: _ => !isDigitCh c

/-- All characters of a string are outside JSON whitespace (whitespace inside
a string literal is content, not extraneous). -/
def strNoWs (s : String) : Bool := s.toList.all (fun c => !isWsCh c)

/-- Values whose serialized text contains no whitespace characters. -/
def jvalNoWs : JVal → Bool
  | .jstr s => strNoWs s
  | _ => true

/-- All characters of a string are in the printable-ASCII range the
serializer models exactly. -/
def strSafe (s : String) : Bool := s.toList.all jsonSafeChar

/-- JSON-representable values within the modelled printable-ASCII range. -/
def jvalSafe : JVal → Bool
  | .jstr s => strSafe s
  | _ => true

/-- The lines of a character sequence, split at `'\n'`. -/
def linesOf : List Char → List (List Char)
  | [] => [[]]
  | c :: rest =>
    if c = '\n' then [] :: linesOf rest
    else
      match linesOf rest with
      | l :: ls => (c :: l) :: ls
      | [] => [[c]]

/-! ### Spec-side definitions for the invariant and clone claims -/

/-- The spec's index-cache consistency invariant, stated from its words:
whenever the dirty flag is clear, `_index_key` is exactly the current
insertion-ordered key sequence and `_key_index` its exact inverse. -/
def indexConsistent {K V : Type} [DecidableEq K] (d : IndexedOrderedDict K V) : Prop :=
  d.need_reindex = false →
    d.index_key = IndexedOrderedDict.keys d ∧
    d.key_index = (IndexedOrderedDict.keys d).enum.map (fun p => (p.2, p.1))

/-- Modelled from the spec's words, for checking the clone claim against the
source: "deep-copies entries".  Entry values are modelled as references (`Nat`
object ids) to mutable objects; a deep copy populates the clone's entries
exclusively with freshly created objects, so none of the clone's value
references may be an object the original holds. -/
def valuesDeeplyCopied {K : Type} (orig clone : IndexedOrderedDict K Nat) : Prop :=
  ∀ r ∈ clone.entries.map Prod.snd, r ∉ orig.entries.map Prod.snd

/-! ### Concrete example states (used by witnesses and counterexamples) -/

/-- An example coercion collaborator: exact-type passthrough, `TypeError`
otherwise (one legal instance of the spec's `as_type` interface). -/
def exactCoerce : PyVal → PyType → Except Err PyVal :=
  fun v t => if v.typeOf = t then .ok v else .error .typeError

/-- `d = IndexedOrderedDict(); d["a"] = 1; d["a"] = 2`. -/
def exSetTwice : IndexedOrderedDict String Int :=
  IndexedOrderedDict.setitem (IndexedOrderedDict.setitem IndexedOrderedDict.empty "a" 1) "a" 2

/-- `d = IndexedOrderedDict(); d["a"] = 1`. -/
def exOne : IndexedOrderedDict String Int :=
  IndexedOrderedDict.setitem IndexedOrderedDict.empty "a" 1

/-- `d = IndexedOrderedDict(); d["a"] = 1; d["b"] = 2` (the `[(a,1),(b,2)]` map). -/
def exAB : IndexedOrderedDict String Int :=
  IndexedOrderedDict.setitem (IndexedOrderedDict.setitem IndexedOrderedDict.empty "a" 1) "b" 2

/-- `exAB` after `move_to_end("a")`. -/
def exABmoved : IndexedOrderedDict String Int :=
  (IndexedOrderedDict.move_to_end exAB "a" true).1

/-- A `ParamDict` holding `{"a": 1, "b": 2}`. -/
def exPD : ParamDict PyVal :=
  IndexedOrderedDict.setitem
    (IndexedOrderedDict.setitem IndexedOrderedDict.empty (PyVal.vStr "a") (PyVal.vInt 1))
    (PyVal.vStr "b") (PyVal.vInt 2)

/-- A one-entry map whose value is (a reference to) object `0`. -/
def exRefMap : IndexedOrderedDict String Nat :=
  IndexedOrderedDict.setitem IndexedOrderedDict.empty "a" 0

/-- A `ParamDict` with JSON values `{"a": 12, "b": "x\"y", "c": -3, "d": null}`. -/
def exJD : ParamDict JVal :=
  IndexedOrderedDict.setitem
    (IndexedOrderedDict.setitem
      (IndexedOrderedDict.setitem
        (IndexedOrderedDict.setitem IndexedOrderedDict.empty
          (PyVal.vStr "a") (JVal.jint 12))
        (PyVal.vStr "b") (JVal.jstr "x\"y"))
      (PyVal.vStr "c") (JVal.jint (-3)))
    (PyVal.vStr "d") JVal.jnull

end Triad

/-! ## Helper lemmas -/

namespace Triad

namespace IndexedOrderedDict

variable {K V : Type} [DecidableEq K]

theorem alookup_odSet (q k : K) (v : V) (es : List (K × V)) :
    alookup q (odSet k v es) = if q = k then some v else alookup q es := by
  induction es with
  | nil =>
    by_cases h : q = k
    · subst h; simp [odSet, alookup]
    · have h2 : ¬ k = q := fun e => h e.symm
      simp [odSet, alookup, h, h2]
  | cons p rest ih =>
    obtain ⟨ek, ev⟩ := p
    by_cases hek : ek = k
    · subst hek
      by_cases hq : q = ek
      · subst hq; simp [odSet, alookup]
      · have hq2 : ¬ ek = q := fun e => hq e.symm
        simp [odSet, alookup, hq, hq2]
    · by_cases hq : ek = q
      · subst hq
        simp [odSet, alookup, hek]
      · simp [odSet, alookup, hek, hq, ih]

theorem alookup_append (q : K) (l1 l2 : List (K × V)) :
    alookup q (l1 ++ l2)
      = match alookup q l1 with
        | some v => some v
        | none => alookup q l2 := by
  induction l1 with
  | nil => simp [alookup]
  | cons p rest ih =>
    by_cases h : p.1 = q
    · simp [alookup, h]
    · simpa [alookup, h] using ih

theorem odSet_fresh (k : K) (v : V) (es : List (K × V)) (h : alookup k es = none) :
    odSet k v es = es ++ [(k, v)] := by
  induction es with
  | nil => simp [odSet]
  | cons p rest ih =>
    by_cases hk : p.1 = k
    · rw [alookup] at h
      simp [hk] at h
    · rw [alookup] at h
      simp only [hk, if_false] at h
      obtain ⟨ek, ev⟩ := p
      simp only at hk
      simp [odSet, hk, ih h]

theorem containsKey_setitem (d : IndexedOrderedDict K V) (k q : K) (v : V) :
    containsKey (setitem d k v) q = (q == k || containsKey d q) := by
  by_cases h : q = k
  · subst h
    simp [containsKey, setitem, lookup, alookup_odSet]
  · simp [containsKey, setitem, lookup, alookup_odSet, h]

theorem entries_setitem_fresh (d : IndexedOrderedDict K V) (k : K) (v : V)
    (h : containsKey d k = false) :
    (setitem d k v).entries = d.entries ++ [(k, v)] := by
  have hl : alookup k d.entries = none := by
    rcases hx : alookup k d.entries with _ | w
    · rfl
    · rw [containsKey, lookup, hx] at h
      simp at h
  simp [setitem, odSet_fresh _ _ _ hl]

theorem pyListGet_oob {α : Type} (xs : List α) (i : Int)
    (h : i < -(xs.length : Int) ∨ (xs.length : Int) ≤ i) :
    pyListGet xs i = .error .indexOutOfRange := by
  unfold pyListGet
  rcases h with h | h
  · have h0 : ¬ (0 ≤ i) := by omega
    have h1 : i + (xs.length : Int) < 0 := by omega
    simp [h0, h1]
  · have h0 : 0 ≤ i := by omega
    have h1 : xs.length ≤ i.toNat := by omega
    simp [h0, List.getElem?_eq_none h1]

theorem pyListGet_neg {α : Type} (xs : List α) (i : Int)
    (h0 : -(xs.length : Int) ≤ i) (h1 : i < 0) :
    pyListGet xs i = pyListGet xs (i + (xs.length : Int)) := by
  unfold pyListGet
  have hn : ¬ 0 ≤ i := by omega
  have hnn : ¬ i + (xs.length : Int) < 0 := by omega
  have hp : 0 ≤ i + (xs.length : Int) := by omega
  simp [hn, hnn, hp]

omit [DecidableEq K] in
theorem length_index_key_build (d : IndexedOrderedDict K V)
    (h : d.need_reindex = true) :
    (build_index d).index_key.length = d.entries.length := by
  simp [build_index, h, keys]

theorem alookup_mem {q : K} {v : V} :
    ∀ {es : List (K × V)}, alookup q es = some v → (q, v) ∈ es := by
  intro es
  induction es with
  | nil => intro h; simp [alookup] at h
  | cons p rest ih =>
    intro h
    rw [alookup] at h
    by_cases hp : p.1 = q
    · simp only [hp, if_true, Option.some.injEq] at h
      have he : (q, v) = p := by rw [← hp, ← h]
      rw [he]
      exact List.mem_cons_self _ _
    · simp only [hp, if_false] at h
      exact List.mem_cons_of_mem _ (ih h)

theorem mem_alookup {q : K} {v : V} :
    ∀ {es : List (K × V)}, (es.map Prod.fst).Nodup → (q, v) ∈ es →
      alookup q es = some v := by
  intro es
  induction es with
  | nil => intro _ h; simp at h
  | cons p rest ih =>
    intro hnd h
    rw [List.map_cons, List.nodup_cons] at hnd
    rcases List.mem_cons.mp h with h | h
    · subst h
      simp [alookup]
    · have hq : q ∈ rest.map Prod.fst := List.mem_map.mpr ⟨(q, v), h, rfl⟩
      have hne : ¬ p.1 = q := fun e => hnd.1 (e ▸ hq)
      rw [alookup, if_neg hne]
      exact ih hnd.2 h

theorem alookup_none_iff {q : K} :
    ∀ {es : List (K × V)}, alookup q es = none ↔ q ∉ es.map Prod.fst := by
  intro es
  induction es with
  | nil => simp [alookup]
  | cons p rest ih =>
    rw [alookup]
    by_cases hp : p.1 = q
    · subst hp
      constructor
      · intro h; simp at h
      · intro h
        exact absurd (by simp) h
    · rw [if_neg hp, ih]
      constructor
      · intro h hmem
        rw [List.map_cons, List.mem_cons] at hmem
        rcases hmem with e | hm
        · exact hp e.symm
        · exact h hm
      · intro h hm
        exact h (by simp [hm])

theorem keys_same_of_lookup_eq {xs ys : List (K × V)}
    (h : ∀ q, alookup q xs = alookup q ys) (q : K) :
    q ∈ xs.map Prod.fst ↔ q ∈ ys.map Prod.fst := by
  constructor
  · intro hm
    by_contra hn
    have := alookup_none_iff.mpr hn
    rw [← h q] at this
    exact (alookup_none_iff.mp this) hm
  · intro hm
    by_contra hn
    have := alookup_none_iff.mpr hn
    rw [h q] at this
    exact (alookup_none_iff.mp this) hm

theorem dictEqb_iff [DecidableEq V] {xs ys : List (K × V)}
    (hx : (xs.map Prod.fst).Nodup) (hy : (ys.map Prod.fst).Nodup) :
    dictEqb xs ys = true ↔ ∀ q, alookup q xs = alookup q ys := by
  constructor
  · intro h q
    rw [dictEqb, Bool.and_eq_true, beq_iff_eq, List.all_eq_true] at h
    obtain ⟨hlen, hall⟩ := h
    rcases hvx : alookup q xs with _ | v
    · have hqx : q ∉ xs.map Prod.fst := alookup_none_iff.mp hvx
      rcases hvy : alookup q ys with _ | w
      · rfl
      · exfalso
        have hsub : ∀ a ∈ xs.map Prod.fst, a ∈ ys.map Prod.fst := by
          intro a ha
          obtain ⟨p, hp, hpa⟩ := List.mem_map.mp ha
          have := hall p hp
          rw [beq_iff_eq] at this
          have : (p.1, p.2) ∈ ys := alookup_mem this
          exact hpa ▸ List.mem_map.mpr ⟨(p.1, p.2), this, rfl⟩
        have hcards : (xs.map Prod.fst).toFinset.card = (ys.map Prod.fst).toFinset.card := by
          rw [List.toFinset_card_of_nodup hx, List.toFinset_card_of_nodup hy]
          simpa using hlen
        have hfsub : (xs.map Prod.fst).toFinset ⊆ (ys.map Prod.fst).toFinset := by
          intro a ha
          rw [List.mem_toFinset] at ha ⊢
          exact hsub a ha
        have hfeq : (xs.map Prod.fst).toFinset = (ys.map Prod.fst).toFinset :=
          Finset.eq_of_subset_of_card_le hfsub (le_of_eq hcards.symm)
        have hqy : q ∈ ys.map Prod.fst := List.mem_map.mpr ⟨(q, w), alookup_mem hvy, rfl⟩
        have : q ∈ xs.map Prod.fst := by
          rw [← List.mem_toFinset, hfeq, List.mem_toFinset] at hqx ⊢
          exact absurd hqy hqx
        exact hqx this
    · have hmem : (q, v) ∈ xs := alookup_mem hvx
      have := hall (q, v) hmem
      rw [beq_iff_eq] at this
      exact this.symm
  · intro h
    rw [dictEqb, Bool.and_eq_true, beq_iff_eq, List.all_eq_true]
    constructor
    · have hiff := keys_same_of_lookup_eq h
      have hfeq : (xs.map Prod.fst).toFinset = (ys.map Prod.fst).toFinset := by
        ext a
        rw [List.mem_toFinset, List.mem_toFinset]
        exact hiff a
      have := congrArg Finset.card hfeq
      rw [List.toFinset_card_of_nodup hx, List.toFinset_card_of_nodup hy] at this
      simpa using this
    · intro p hp
      rw [beq_iff_eq, ← h p.1]
      exact mem_alookup hx hp

theorem foldl_odSet_fresh :
    ∀ (ps : List (K × V)) (acc : List (K × V)),
      (∀ p ∈ ps, alookup p.1 acc = none) → (ps.map Prod.fst).Nodup →
      ps.foldl (fun a p => odSet p.1 p.2 a) acc = acc ++ ps := by
  intro ps
  induction ps with
  | nil => intro acc _ _; simp
  | cons p rest ih =>
    intro acc habs hnd
    rw [List.map_cons, List.nodup_cons] at hnd
    rw [List.foldl_cons, odSet_fresh _ _ _ (habs p (by simp))]
    rw [ih (acc ++ [p]) ?_ hnd.2]
    · simp
    · intro q hq
      rw [alookup_append]
      rw [habs q (by simp [hq])]
      have hne : ¬ p.1 = q.1 := by
        intro e
        exact hnd.1 (e ▸ List.mem_map.mpr ⟨q, hq, rfl⟩)
      simp [alookup, hne]

theorem odFromPairs_of_nodup (ps : List (K × V))
    (hnd : (ps.map Prod.fst).Nodup) : odFromPairs ps = ps := by
  rw [odFromPairs, foldl_odSet_fresh ps [] (fun p _ => rfl) hnd]
  simp

end IndexedOrderedDict

namespace ParamDict

variable {V : Type}

theorem update_nil (d : ParamDict V) (dup : Int) (deep : Bool) (dc : V → V) :
    update d [] dup deep dc = (d, .ok ()) := rfl

theorem update_cons_absent (d : ParamDict V) (k : PyVal) (v : V)
    (rest : List (PyVal × V)) (dup : Int) (deep : Bool) (dc : V → V)
    (hk : k.isStr = true) (habs : IndexedOrderedDict.containsKey d k = false) :
    update d ((k, v) :: rest) dup deep dc
      = update (IndexedOrderedDict.setitem d k (if deep then dc v else v)) rest dup deep dc := by
  simp [update, habs, setitem, hk]

theorem update_cons_overwrite (d : ParamDict V) (k : PyVal) (v : V)
    (rest : List (PyVal × V)) (deep : Bool) (dc : V → V) (hk : k.isStr = true) :
    update d ((k, v) :: rest) OVERWRITE deep dc
      = update (IndexedOrderedDict.setitem d k (if deep then dc v else v)) rest OVERWRITE deep dc := by
  simp [update, setitem, hk]

theorem update_cons_present_throw (d : ParamDict V) (k : PyVal) (v : V)
    (rest : List (PyVal × V)) (deep : Bool) (dc : V → V)
    (hp : IndexedOrderedDict.containsKey d k = true) :
    update d ((k, v) :: rest) THROW deep dc = (d, .error .duplicateKey) := by
  have h10 : ((THROW : Int) == OVERWRITE) = false := by decide
  have h11 : ((THROW : Int) == THROW) = true := by decide
  simp [update, hp, h10, h11]

theorem update_cons_present_ignore (d : ParamDict V) (k : PyVal) (v : V)
    (rest : List (PyVal × V)) (deep : Bool) (dc : V → V)
    (hp : IndexedOrderedDict.containsKey d k = true) :
    update d ((k, v) :: rest) IGNORE deep dc = update d rest IGNORE deep dc := by
  have h20 : ((IGNORE : Int) == OVERWRITE) = false := by decide
  have h21 : ((IGNORE : Int) == THROW) = false := by decide
  have h22 : ((IGNORE : Int) == IGNORE) = true := by decide
  simp [update, hp, h20, h21, h22]

theorem update_cons_present_invalid (d : ParamDict V) (k : PyVal) (v : V)
    (rest : List (PyVal × V)) (dup : Int) (deep : Bool) (dc : V → V)
    (hp : IndexedOrderedDict.containsKey d k = true)
    (h0 : dup ≠ 0) (h1 : dup ≠ 1) (h2 : dup ≠ 2) :
    update d ((k, v) :: rest) dup deep dc = (d, .error .invalidArgument) := by
  have e0 : (dup == OVERWRITE) = false := beq_eq_false_iff_ne.mpr h0
  have e1 : (dup == THROW) = false := beq_eq_false_iff_ne.mpr h1
  have e2 : (dup == IGNORE) = false := beq_eq_false_iff_ne.mpr h2
  simp [update, hp, e0, e1, e2]

theorem update_cons_nonstr (d : ParamDict V) (k : PyVal) (v : V)
    (rest : List (PyVal × V)) (dup : Int) (deep : Bool) (dc : V → V)
    (hk : k.isStr = false)
    (hc : dup = 0 ∨ IndexedOrderedDict.containsKey d k = false) :
    update d ((k, v) :: rest) dup deep dc = (d, .error .typeError) := by
  rcases hc with hc | hc
  · subst hc
    have e0 : ((0 : Int) == OVERWRITE) = true := by decide
    simp [update, e0, setitem, hk]
  · simp [update, hc, setitem, hk]

theorem update_overwrite_foldl :
    ∀ (pairs : List (PyVal × V)) (d : ParamDict V) (deep : Bool) (dc : V → V),
      (∀ p ∈ pairs, (p.1).isStr = true) →
      update d pairs OVERWRITE deep dc
        = (pairs.foldl
            (fun acc p => IndexedOrderedDict.setitem acc p.1 (if deep then dc p.2 else p.2)) d,
           .ok ()) := by
  intro pairs
  induction pairs with
  | nil => intro d deep dc _; simp [update]
  | cons p rest ih =>
    intro d deep dc hstr
    obtain ⟨k, v⟩ := p
    rw [update_cons_overwrite _ _ _ _ _ _ (hstr (k, v) (by simp))]
    rw [ih _ deep dc (fun q hq => hstr q (by simp [hq]))]
    simp

theorem update_fresh_foldl :
    ∀ (pairs : List (PyVal × V)) (d : ParamDict V) (dup : Int) (deep : Bool) (dc : V → V),
      (∀ p ∈ pairs, (p.1).isStr = true) →
      (pairs.map Prod.fst).Nodup →
      (∀ p ∈ pairs, IndexedOrderedDict.containsKey d p.1 = false) →
      update d pairs dup deep dc
        = (pairs.foldl
            (fun acc p => IndexedOrderedDict.setitem acc p.1 (if deep then dc p.2 else p.2)) d,
           .ok ()) := by
  intro pairs
  induction pairs with
  | nil => intro d dup deep dc _ _ _; simp [update]
  | cons p rest ih =>
    intro d dup deep dc hstr hnd habs
    obtain ⟨k, v⟩ := p
    rw [List.map_cons, List.nodup_cons] at hnd
    rw [update_cons_absent _ _ _ _ _ _ _ (hstr (k, v) (by simp)) (habs (k, v) (by simp))]
    rw [ih _ dup deep dc (fun q hq => hstr q (by simp [hq])) hnd.2 ?_]
    · simp
    · intro q hq
      rw [IndexedOrderedDict.containsKey_setitem]
      have hne : (q.1 == k) = false := by
        rw [beq_eq_false_iff_ne]
        intro e
        exact hnd.1 (e ▸ List.mem_map.mpr ⟨q, hq, rfl⟩)
      rw [hne, habs q (by simp [hq])]
      rfl

end ParamDict

/-! ### Decimal digit lemmas -/

theorem digitChar_val (k : Nat) (h : k < 10) :
    digitVal (digitChar k) = k ∧ isDigitCh (digitChar k) = true := by
  interval_cases k <;> exact ⟨by decide, by decide⟩

theorem natDigitsAux_irrel (n : Nat) :
    ∀ f1 f2 : Nat, n < f1 → n < f2 → natDigitsAux f1 n = natDigitsAux f2 n := by
  induction n using Nat.strong_induction_on with
  | _ n ih =>
    intro f1 f2 h1 h2
    obtain ⟨a, rfl⟩ : ∃ a, f1 = a + 1 := ⟨f1 - 1, by omega⟩
    obtain ⟨b, rfl⟩ : ∃ b, f2 = b + 1 := ⟨f2 - 1, by omega⟩
    rw [natDigitsAux, natDigitsAux]
    by_cases h10 : n < 10
    · simp [h10]
    · have hd : n / 10 < n := Nat.div_lt_self (by omega) (by omega)
      simp only [h10, if_false]
      rw [ih (n / 10) hd a b (by omega) (by omega)]

theorem natDigits_unfold (n : Nat) :
    natDigits n = if n < 10 then [digitChar n]
                  else natDigits (n / 10) ++ [digitChar (n % 10)] := by
  rw [natDigits, natDigitsAux]
  by_cases h10 : n < 10
  · simp [h10]
  · have hd : n / 10 < n := Nat.div_lt_self (by omega) (by omega)
    simp only [h10, if_false]
    rw [natDigits, natDigitsAux_irrel (n / 10) n (n / 10 + 1) hd (by omega)]

theorem natDigits_all_digit (n : Nat) : ∀ c ∈ natDigits n, isDigitCh c = true := by
  induction n using Nat.strong_induction_on with
  | _ n ih =>
    rw [natDigits_unfold]
    by_cases h10 : n < 10
    · simp only [h10, if_true]
      intro c hc
      rw [List.mem_singleton] at hc
      subst hc
      exact (digitChar_val n h10).2
    · have hd : n / 10 < n := Nat.div_lt_self (by omega) (by omega)
      simp only [h10, if_false]
      intro c hc
      rcases List.mem_append.mp hc with hc | hc
      · exact ih (n / 10) hd c hc
      · rw [List.mem_singleton] at hc
        subst hc
        exact (digitChar_val (n % 10) (Nat.mod_lt _ (by omega))).2

theorem natDigits_cons (n : Nat) :
    ∃ c t, natDigits n = c :: t ∧ isDigitCh c = true := by
  rcases he : natDigits n with _ | ⟨c, t⟩
  · exfalso
    rw [natDigits_unfold] at he
    by_cases h10 : n < 10 <;> simp [h10] at he
  · exact ⟨c, t, rfl, natDigits_all_digit n c (he ▸ List.mem_cons_self _ _)⟩

theorem digitsToNat_append (xs : List Char) (c : Char) :
    digitsToNat (xs ++ [c]) = 10 * digitsToNat xs + digitVal c := by
  simp only [digitsToNat, List.foldl_append, List.foldl_cons, List.foldl_nil]
  omega

theorem digitsToNat_natDigits (n : Nat) : digitsToNat (natDigits n) = n := by
  induction n using Nat.strong_induction_on with
  | _ n ih =>
    rw [natDigits_unfold]
    by_cases h10 : n < 10
    · simp only [h10, if_true]
      have h1 := (digitChar_val n h10).1
      simp only [digitsToNat, List.foldl_cons, List.foldl_nil]
      omega
    · have hd : n / 10 < n := Nat.div_lt_self (by omega) (by omega)
      simp only [h10, if_false]
      rw [digitsToNat_append, ih (n / 10) hd,
        (digitChar_val (n % 10) (Nat.mod_lt _ (by omega))).1]
      omega

theorem takeDigits_stop (cs : List Char) (h : numStop cs = true) :
    takeDigits cs = ([], cs) := by
  cases cs with
  | nil => rfl
  | cons c t =>
    rw [numStop, Bool.not_eq_true'] at h
    simp [takeDigits, h]

theorem takeDigits_run (ds : List Char) (hds : ∀ c ∈ ds, isDigitCh c = true)
    (rest : List Char) (hr : numStop rest = true) :
    takeDigits (ds ++ rest) = (ds, rest) := by
  induction ds with
  | nil =>
    rw [List.nil_append]
    exact takeDigits_stop rest hr
  | cons c t ih =>
    rw [List.cons_append, takeDigits, if_pos (hds c (List.mem_cons_self _ _)),
      ih (fun x hx => hds x (List.mem_cons_of_mem _ hx))]

theorem digitCh_ne {c : Char} (h : isDigitCh c = true) :
    ∀ x : Char, isDigitCh x = false → c ≠ x := fun x hx e => by
  rw [e, hx] at h
  exact Bool.false_ne_true h

theorem digitCh_not_ws {c : Char} (h : isDigitCh c = true) : isWsCh c = false := by
  rw [isWsCh]
  rw [decide_eq_false (digitCh_ne h ' ' (by decide)),
      decide_eq_false (digitCh_ne h '\t' (by decide)),
      decide_eq_false (digitCh_ne h '\n' (by decide)),
      decide_eq_false (digitCh_ne h '\r' (by decide))]
  rfl

theorem safeChar_not_nl {c : Char} (h : jsonSafeChar c = true) : c ≠ '\n' :=
  fun e => by rw [e] at h; exact absurd h (by decide)

/-! ### String escaping and whitespace lemmas -/

theorem mem_escapeList {x : Char} :
    ∀ {cs : List Char}, x ∈ escapeList cs → x = '\\' ∨ x ∈ cs := by
  intro cs
  induction cs with
  | nil => intro h; simp [escapeList] at h
  | cons c t ih =>
    intro h
    rw [escapeList, List.mem_append] at h
    rcases h with h | h
    · rw [escapeChar] at h
      by_cases hc : (c = '"' || c = '\\') = true
      · rw [if_pos hc] at h
        simp at h
        rcases h with h | h
        · exact Or.inl h
        · exact Or.inr (by simp [h])
      · rw [if_neg hc] at h
        simp at h
        exact Or.inr (by simp [h])
    · rcases ih h with h | h
      · exact Or.inl h
      · exact Or.inr (by simp [h])

theorem parseStrBody_esc_cons (e : Char) (tail : List Char) :
    parseStrBody ('\\' :: e :: tail)
      = match unescapeChar e, parseStrBody tail with
        | some c2, some (s, r) => some (c2 :: s, r)
        | _, _ => none := rfl

theorem parseStrBody_cons (c : Char) (tail : List Char) :
    parseStrBody (c :: tail)
      = if c = '"' then some ([], tail)
        else if c = '\\' then
          match tail with
          | [] => none
          | e :: rest2 =>
            match unescapeChar e, parseStrBody rest2 with
            | some c2, some (s, r) => some (c2 :: s, r)
            | _, _ => none
        else
          match parseStrBody tail with
          | some (s, r) => some (c :: s, r)
          | none => none := by
  rw [parseStrBody.eq_def]

theorem parseStrBody_lit_cons (c : Char) (tail : List Char)
    (h1 : ¬ c = '"') (h2 : ¬ c = '\\') :
    parseStrBody (c :: tail)
      = match parseStrBody tail with
        | some (s, r) => some (c :: s, r)
        | none => none := by
  rw [parseStrBody_cons, if_neg h1, if_neg h2]

theorem parseStrBody_escape (cs : List Char) :
    ∀ rest : List Char,
      parseStrBody (escapeList cs ++ '"' :: rest) = some (cs, rest) := by
  induction cs with
  | nil =>
    intro rest
    rw [escapeList, List.nil_append, parseStrBody_cons, if_pos rfl]
  | cons c t ih =>
    intro rest
    rw [escapeList, escapeChar]
    by_cases hc : (c = '"' || c = '\\') = true
    · rw [if_pos hc]
      have hcc : c = '"' ∨ c = '\\' := by
        rcases Bool.or_eq_true_iff.mp hc with h | h
        · exact Or.inl (of_decide_eq_true h)
        · exact Or.inr (of_decide_eq_true h)
      have hu : unescapeChar c = some c := by
        rcases hcc with h | h <;> subst h <;> rfl
      simp only [List.cons_append, List.nil_append]
      rw [parseStrBody_esc_cons, hu, ih rest]
    · rw [if_neg hc]
      simp only [Bool.or_eq_true, decide_eq_true_eq, not_or] at hc
      simp only [List.cons_append, List.nil_append]
      rw [parseStrBody_lit_cons c _ hc.1 hc.2, ih rest]

theorem skipWs_cons_not {c : Char} {t : List Char} (h : isWsCh c = false) :
    skipWs (c :: t) = c :: t := by
  simp [skipWs, h]

theorem skipWs_cons_ws {c : Char} {t : List Char} (h : isWsCh c = true) :
    skipWs (c :: t) = skipWs t := by
  simp [skipWs, h]

theorem dumpJVal_head (v : JVal) :
    ∃ c t, dumpJVal v = c :: t ∧ isWsCh c = false := by
  cases v with
  | jnull => exact ⟨'n', _, rfl, by decide⟩
  | jbool b =>
    cases b with
    | false => exact ⟨'f', _, rfl, by decide⟩
    | true => exact ⟨'t', _, rfl, by decide⟩
  | jint n =>
    rw [dumpJVal, intChars]
    by_cases hn : n < 0
    · rw [if_pos hn]
      exact ⟨'-', _, rfl, by decide⟩
    · rw [if_neg hn]
      obtain ⟨c, t, he, hd⟩ := natDigits_cons n.natAbs
      exact ⟨c, t, he, digitCh_not_ws hd⟩
  | jstr s => exact ⟨'"', _, rfl, by decide⟩

theorem skipWs_dump (v : JVal) (x : List Char) :
    skipWs (dumpJVal v ++ x) = dumpJVal v ++ x := by
  obtain ⟨c, t, he, hw⟩ := dumpJVal_head v
  rw [he, List.cons_append]
  exact skipWs_cons_not hw

theorem String_mk_toList (s : String) : String.mk s.toList = s := rfl

theorem parseJVal_cons (c : Char) (rest : List Char) :
    parseJVal (c :: rest)
      = if c = 'n' then
          match rest with
          | 'u' :: 'l' :: 'l' :: r => some (.jnull, r)
          | _ => none
        else if c = 't' then
          match rest with
          | 'r' :: 'u' :: 'e' :: r => some (.jbool true, r)
          | _ => none
        else if c = 'f' then
          match rest with
          | 'a' :: 'l' :: 's' :: 'e' :: r => some (.jbool false, r)
          | _ => none
        else if c = '"' then
          match parseStrBody rest with
          | some (s, r) => some (.jstr (String.mk s), r)
          | none => none
        else if c = '-' then
          let p := takeDigits rest
          if p.1.isEmpty then none
          else some (.jint (-(digitsToNat p.1 : Int)), p.2)
        else if isDigitCh c then
          let p := takeDigits (c :: rest)
          if p.1.isEmpty then none
          else some (.jint ((digitsToNat p.1 : Int)), p.2)
        else none := rfl

theorem parseJVal_int (n : Int) (rest : List Char) (hr : numStop rest = true) :
    parseJVal (intChars n ++ rest) = some (.jint n, rest) := by
  have htake : takeDigits (natDigits n.natAbs ++ rest)
      = (natDigits n.natAbs, rest) :=
    takeDigits_run _ (natDigits_all_digit _) _ hr
  obtain ⟨c, t, he, hd⟩ := natDigits_cons n.natAbs
  have hv : digitsToNat (c :: t) = n.natAbs := by rw [← he, digitsToNat_natDigits]
  rw [intChars]
  by_cases hn : n < 0
  · rw [if_pos hn, List.cons_append, parseJVal_cons]
    rw [if_neg (show ¬('-' : Char) = 'n' by decide),
        if_neg (show ¬('-' : Char) = 't' by decide),
        if_neg (show ¬('-' : Char) = 'f' by decide),
        if_neg (show ¬('-' : Char) = '"' by decide),
        if_pos rfl, htake, he]
    have hend : -((n.natAbs : Nat) : Int) = n := by omega
    simp only [List.isEmpty_cons, Bool.false_eq_true, if_false, hv, hend]
  · rw [if_neg hn]
    rw [he, List.cons_append, parseJVal_cons]
    rw [if_neg (digitCh_ne hd 'n' (by decide)), if_neg (digitCh_ne hd 't' (by decide)),
        if_neg (digitCh_ne hd 'f' (by decide)), if_neg (digitCh_ne hd '"' (by decide)),
        if_neg (digitCh_ne hd '-' (by decide)), if_pos hd]
    rw [← List.cons_append, ← he, htake, he]
    have hend : ((n.natAbs : Nat) : Int) = n := by omega
    simp only [List.isEmpty_cons, Bool.false_eq_true, if_false, hv, hend]

theorem parseJVal_dump (v : JVal) (rest : List Char) (hr : numStop rest = true) :
    parseJVal (dumpJVal v ++ rest) = some (v, rest) := by
  cases v with
  | jnull => simp [dumpJVal, parseJVal]
  | jbool b => cases b <;> simp [dumpJVal, parseJVal]
  | jint n => exact parseJVal_int n rest hr
  | jstr s =>
    rw [dumpJVal, strChars]
    simp only [List.cons_append, List.append_assoc, List.singleton_append,
      List.nil_append]
    rw [parseJVal_cons,
        if_neg (show ¬('"' : Char) = 'n' by decide),
        if_neg (show ¬('"' : Char) = 't' by decide),
        if_neg (show ¬('"' : Char) = 'f' by decide),
        if_pos rfl,
        parseStrBody_escape s.toList rest]
    rfl

/-! ### Object member round-trip lemmas -/

theorem entriesCompact_shape (k : String) (v : JVal) (ps : List (String × JVal)) :
    ∃ t, entriesCompact ((k, v) :: ps) = '"' :: t := by
  cases ps with
  | nil => exact ⟨_, rfl⟩
  | cons q qs => exact ⟨_, rfl⟩

theorem entriesPretty_shape (k : String) (v : JVal) (ps : List (String × JVal)) :
    ∃ t, entriesPretty ((k, v) :: ps) = ' ' :: ' ' :: ' ' :: ' ' :: '"' :: t := by
  cases ps with
  | nil => exact ⟨_, rfl⟩
  | cons q qs => exact ⟨_, rfl⟩

theorem entriesCompact_length (ps : List (String × JVal)) :
    ps.length ≤ (entriesCompact ps).length := by
  induction ps with
  | nil => simp [entriesCompact]
  | cons p rest ih =>
    have h1 : 1 ≤ (entryCompact p).length := by
      rw [entryCompact, strChars]
      simp
    cases rest with
    | nil =>
      rw [entriesCompact]
      simpa using h1
    | cons q qs =>
      rw [entriesCompact]
      simp only [List.length_append, List.length_cons]
      simp only [List.length_cons] at ih
      omega

theorem entriesPretty_length (ps : List (String × JVal)) :
    ps.length ≤ (entriesPretty ps).length := by
  induction ps with
  | nil => simp [entriesPretty]
  | cons p rest ih =>
    have h1 : 1 ≤ (entryPretty p).length := by
      rw [entryPretty]
      simp
    cases rest with
    | nil =>
      rw [entriesPretty]
      simpa using h1
    | cons q qs =>
      rw [entriesPretty]
      simp only [List.length_append, List.length_cons]
      simp only [List.length_cons] at ih
      omega

theorem parseEntries_compact :
    ∀ (ps : List (String × JVal)) (k : String) (v : JVal) (fuel : Nat) (rest : List Char),
      ps.length < fuel →
      parseEntries fuel (entriesCompact ((k, v) :: ps) ++ '}' :: rest)
        = some ((k, v) :: ps, rest) := by
  intro ps
  induction ps with
  | nil =>
    intro k v fuel rest hf
    obtain ⟨f, rfl⟩ : ∃ f, fuel = f + 1 := ⟨fuel - 1, by omega⟩
    simp [entriesCompact, entryCompact, strChars, List.cons_append,
      List.append_assoc, List.singleton_append, List.nil_append,
      parseEntries, skipWs, isWsCh, parseStrBody_escape, skipWs_dump,
      parseJVal_dump, numStop, isDigitCh, String_mk_toList]
  | cons q qs ih =>
    intro k v fuel rest hf
    obtain ⟨f, rfl⟩ : ∃ f, fuel = f + 1 := ⟨fuel - 1, by omega⟩
    obtain ⟨qk, qv⟩ := q
    have hf2 : qs.length + 1 < f + 1 := by simpa using hf
    have hrec := ih qk qv f rest (by omega)
    simp [entriesCompact, entryCompact, strChars, List.cons_append,
      List.append_assoc, List.singleton_append, List.nil_append,
      parseEntries, skipWs, isWsCh, parseStrBody_escape, skipWs_dump,
      parseJVal_dump, numStop, isDigitCh, String_mk_toList] at hrec ⊢
    rw [hrec]

theorem skipWs_append_all (ws : List Char) (h : ∀ c ∈ ws, isWsCh c = true)
    (t : List Char) : skipWs (ws ++ t) = skipWs t := by
  induction ws with
  | nil => simp
  | cons c cs ih =>
    rw [List.cons_append, skipWs_cons_ws (h c (by simp))]
    exact ih (fun x hx => h x (by simp [hx]))

theorem parseEntries_pretty :
    ∀ (ps : List (String × JVal)) (k : String) (v : JVal) (fuel : Nat)
      (rest ws : List Char),
      (∀ c ∈ ws, isWsCh c = true) → ps.length < fuel →
      parseEntries fuel (ws ++ (entriesPretty ((k, v) :: ps) ++ '\n' :: '}' :: rest))
        = some ((k, v) :: ps, rest) := by
  intro ps
  induction ps with
  | nil =>
    intro k v fuel rest ws hws hf
    obtain ⟨f, rfl⟩ : ∃ f, fuel = f + 1 := ⟨fuel - 1, by omega⟩
    have hw := skipWs_append_all ws hws
    simp [entriesPretty, entryPretty, strChars, List.cons_append,
      List.append_assoc, List.singleton_append, List.nil_append,
      parseEntries, hw, skipWs, isWsCh, parseStrBody_escape, skipWs_dump,
      parseJVal_dump, numStop, isDigitCh, String_mk_toList]
  | cons q qs ih =>
    intro k v fuel rest ws hws hf
    obtain ⟨f, rfl⟩ : ∃ f, fuel = f + 1 := ⟨fuel - 1, by omega⟩
    obtain ⟨qk, qv⟩ := q
    have hf2 : qs.length + 1 < f + 1 := by simpa using hf
    have hw := skipWs_append_all ws hws
    have hrec := ih qk qv f rest ['\n'] (by decide) (by omega)
    simp [entriesPretty, entryPretty, strChars, List.cons_append,
      List.append_assoc, List.singleton_append, List.nil_append,
      parseEntries, hw, skipWs, isWsCh, parseStrBody_escape, skipWs_dump,
      parseJVal_dump, numStop, isDigitCh, String_mk_toList] at hrec ⊢
    rw [hrec]

theorem String_toList_mk (cs : List Char) : (String.mk cs).toList = cs := rfl

theorem loadsObj_dumpsCompact (ps : List (String × JVal)) :
    loadsObj (String.mk (dumpsCompact ps)) = some ps := by
  cases ps with
  | nil => rfl
  | cons p qs =>
    obtain ⟨k, v⟩ := p
    obtain ⟨t, ht⟩ := entriesCompact_shape k v qs
    have hlen := entriesCompact_length ((k, v) :: qs)
    rw [ht] at hlen
    have hparse : ∀ fuel : Nat, qs.length < fuel →
        parseEntries fuel ('"' :: (t ++ ['}']))
          = some ((k, v) :: qs, []) := by
      intro fuel hfl
      have := parseEntries_compact qs k v fuel [] hfl
      rw [ht] at this
      simpa using this
    simp [loadsObj, dumpsCompact, String_toList_mk, ht, skipWs, isWsCh]
    rw [hparse]
    · simp [skipWs]
    · simp only [List.length_cons] at hlen
      omega

theorem loadsObj_dumpsPretty (ps : List (String × JVal)) :
    loadsObj (String.mk (dumpsPretty ps)) = some ps := by
  cases ps with
  | nil => rfl
  | cons p qs =>
    obtain ⟨k, v⟩ := p
    obtain ⟨t, ht⟩ := entriesPretty_shape k v qs
    have hlen := entriesPretty_length ((k, v) :: qs)
    rw [ht] at hlen
    have hparse : ∀ fuel : Nat, qs.length < fuel →
        parseEntries fuel ('\n' :: (entriesPretty ((k, v) :: qs) ++ '\n' :: '}' :: []))
          = some ((k, v) :: qs, []) := by
      intro fuel hfl
      have := parseEntries_pretty qs k v fuel [] ['\n'] (by decide) hfl
      simpa using this
    have hparse2 : ∀ fuel : Nat, qs.length < fuel →
        parseEntries fuel ('\n' :: (' ' :: ' ' :: ' ' :: ' ' :: '"' :: t ++ '\n' :: '}' :: []))
          = some ((k, v) :: qs, []) := by
      intro fuel hfl
      have := hparse fuel hfl
      rw [ht] at this
      simpa using this
    simp only [List.cons_append] at hparse2
    simp [loadsObj, dumpsPretty, String_toList_mk, ht, skipWs, isWsCh]
    rw [hparse2]
    · simp [skipWs]
    · simp only [List.length_cons] at hlen
      omega

/-! ### Whitespace and line-structure lemmas -/

theorem mem_strChars {x : Char} {s : String} (h : x ∈ strChars s) :
    x = '"' ∨ x = '\\' ∨ x ∈ s.toList := by
  rw [strChars] at h
  rcases List.mem_cons.mp h with h | h
  · exact Or.inl h
  · rcases List.mem_append.mp h with h | h
    · rcases mem_escapeList h with h | h
      · exact Or.inr (Or.inl h)
      · exact Or.inr (Or.inr h)
    · rw [List.mem_singleton] at h
      exact Or.inl h

theorem dumpJVal_no_ws {v : JVal} (hv : jvalNoWs v = true) :
    ∀ c ∈ dumpJVal v, isWsCh c = false := by
  cases v with
  | jnull =>
    intro c hc
    simp only [dumpJVal, List.mem_cons, List.not_mem_nil, or_false] at hc
    rcases hc with rfl | rfl | rfl | rfl <;> decide
  | jbool b =>
    intro c hc
    cases b with
    | true =>
      simp only [dumpJVal, List.mem_cons, List.not_mem_nil, or_false] at hc
      rcases hc with rfl | rfl | rfl | rfl <;> decide
    | false =>
      simp only [dumpJVal, List.mem_cons, List.not_mem_nil, or_false] at hc
      rcases hc with rfl | rfl | rfl | rfl | rfl <;> decide
  | jint n =>
    intro c hc
    rw [dumpJVal, intChars] at hc
    by_cases hn : n < 0
    · rw [if_pos hn] at hc
      rcases List.mem_cons.mp hc with rfl | hc
      · decide
      · exact digitCh_not_ws (natDigits_all_digit _ c hc)
    · rw [if_neg hn] at hc
      exact digitCh_not_ws (natDigits_all_digit _ c hc)
  | jstr s =>
    intro c hc
    rcases mem_strChars hc with rfl | rfl | hc
    · decide
    · decide
    · rw [jvalNoWs, strNoWs, List.all_eq_true] at hv
      have := hv c hc
      rwa [Bool.not_eq_true'] at this

theorem dumpJVal_no_nl {v : JVal} (hv : jvalSafe v = true) : '\n' ∉ dumpJVal v := by
  intro hm
  cases v with
  | jnull =>
    simp only [dumpJVal, List.mem_cons, List.not_mem_nil, or_false] at hm
    rcases hm with h | h | h | h <;> exact absurd h (by decide)
  | jbool b =>
    cases b <;> simp [dumpJVal] at hm
  | jint n =>
    rw [dumpJVal, intChars] at hm
    by_cases hn : n < 0
    · rw [if_pos hn] at hm
      rcases List.mem_cons.mp hm with h | h
      · exact absurd h (by decide)
      · exact digitCh_ne (natDigits_all_digit _ _ h) '\n' (by decide) rfl
    · rw [if_neg hn] at hm
      exact digitCh_ne (natDigits_all_digit _ _ hm) '\n' (by decide) rfl
  | jstr s =>
    rcases mem_strChars hm with h | h | h
    · exact absurd h (by decide)
    · exact absurd h (by decide)
    · rw [jvalSafe, strSafe, List.all_eq_true] at hv
      exact safeChar_not_nl (hv _ h) rfl

theorem entryCompact_no_ws {p : String × JVal}
    (hk : strNoWs p.1 = true) (hv : jvalNoWs p.2 = true) :
    ∀ c ∈ entryCompact p, isWsCh c = false := by
  intro c hc
  rw [entryCompact] at hc
  rcases List.mem_append.mp hc with hc | hc
  · rcases mem_strChars hc with rfl | rfl | hc
    · decide
    · decide
    · rw [strNoWs, List.all_eq_true] at hk
      have := hk c hc
      rwa [Bool.not_eq_true'] at this
  · rcases List.mem_cons.mp hc with rfl | hc
    · decide
    · exact dumpJVal_no_ws hv c hc

theorem entriesCompact_no_ws :
    ∀ ps : List (String × JVal),
      (∀ p ∈ ps, strNoWs p.1 = true ∧ jvalNoWs p.2 = true) →
      ∀ c ∈ entriesCompact ps, isWsCh c = false := by
  intro ps
  induction ps with
  | nil => intro _ c hc; simp [entriesCompact] at hc
  | cons p qs ih =>
    intro h c hc
    cases qs with
    | nil =>
      rw [entriesCompact] at hc
      exact entryCompact_no_ws (h p (by simp)).1 (h p (by simp)).2 c hc
    | cons q qs2 =>
      rw [entriesCompact] at hc
      rcases List.mem_append.mp hc with hc | hc
      · exact entryCompact_no_ws (h p (by simp)).1 (h p (by simp)).2 c hc
      · rcases List.mem_cons.mp hc with rfl | hc
        · decide
        · exact ih (fun r hr => h r (by simp [hr])) c hc

theorem dumpsCompact_no_ws (ps : List (String × JVal))
    (h : ∀ p ∈ ps, strNoWs p.1 = true ∧ jvalNoWs p.2 = true) :
    ∀ c ∈ dumpsCompact ps, isWsCh c = false := by
  intro c hc
  rw [dumpsCompact] at hc
  rcases List.mem_cons.mp hc with rfl | hc
  · decide
  · rcases List.mem_append.mp hc with hc | hc
    · exact entriesCompact_no_ws ps h c hc
    · rw [List.mem_singleton] at hc
      subst hc
      decide

theorem entryPretty_no_nl {p : String × JVal}
    (hk : strSafe p.1 = true) (hv : jvalSafe p.2 = true) :
    '\n' ∉ entryPretty p := by
  intro hm
  rw [entryPretty] at hm
  simp only [List.mem_cons] at hm
  rcases hm with h | h | h | h | hm
  · exact absurd h (by decide)
  · exact absurd h (by decide)
  · exact absurd h (by decide)
  · exact absurd h (by decide)
  · rcases List.mem_append.mp hm with hm | hm
    · rcases mem_strChars hm with h | h | h
      · exact absurd h (by decide)
      · exact absurd h (by decide)
      · rw [strSafe, List.all_eq_true] at hk
        exact safeChar_not_nl (hk _ h) rfl
    · rcases List.mem_cons.mp hm with h | hm
      · exact absurd h (by decide)
      · rcases List.mem_cons.mp hm with h | hm
        · exact absurd h (by decide)
        · exact dumpJVal_no_nl hv hm

theorem entryPretty_take4 (p : String × JVal) (suffix : List Char) :
    ((entryPretty p ++ suffix).take 4 = [' ', ' ', ' ', ' ']) ∧
    ((entryPretty p ++ suffix).get? 4 = some '"') :=
  ⟨rfl, rfl⟩

theorem linesOf_no_nl (xs : List Char) (h : '\n' ∉ xs) : linesOf xs = [xs] := by
  induction xs with
  | nil => rfl
  | cons c t ih =>
    have hc : ¬ c = '\n' := fun e => h (by simp [e])
    rw [linesOf, if_neg hc, ih (fun hm => h (by simp [hm]))]

theorem linesOf_append_nl (xs ys : List Char) (h : '\n' ∉ xs) :
    linesOf (xs ++ '\n' :: ys) = xs :: linesOf ys := by
  induction xs with
  | nil => simp [linesOf]
  | cons c t ih =>
    have hc : ¬ c = '\n' := fun e => h (by simp [e])
    rw [List.cons_append, linesOf, if_neg hc, ih (fun hm => h (by simp [hm]))]

theorem linesOf_entriesPretty :
    ∀ (ps : List (String × JVal)) (k : String) (v : JVal),
      (∀ p ∈ (k, v) :: ps, strSafe p.1 = true ∧ jvalSafe p.2 = true) →
      ∃ Ls, linesOf (entriesPretty ((k, v) :: ps) ++ '\n' :: ['}']) = Ls ++ [['}']]
        ∧ Ls.length = ps.length + 1
        ∧ ∀ l ∈ Ls, l.take 4 = [' ', ' ', ' ', ' '] ∧ l.get? 4 = some '"' := by
  intro ps
  induction ps with
  | nil =>
    intro k v h
    refine ⟨[entryPretty (k, v)], ?_, rfl, ?_⟩
    · rw [entriesPretty,
        linesOf_append_nl _ _
          (entryPretty_no_nl (h _ (by simp)).1 (h _ (by simp)).2),
        linesOf_no_nl ['}'] (by decide)]
      rfl
    · intro l hl
      rw [List.mem_singleton] at hl
      subst hl
      have := entryPretty_take4 (k, v) []
      simpa using this
  | cons q qs ih =>
    intro k v h
    obtain ⟨qk, qv⟩ := q
    obtain ⟨Ls, hEq, hLen, hAll⟩ := ih qk qv (fun p hp => h p (by simp at hp ⊢; tauto))
    have hnl2 : '\n' ∉ entryPretty (k, v) ++ [','] := by
      intro hm
      rcases List.mem_append.mp hm with hm | hm
      · exact entryPretty_no_nl (h _ (by simp)).1 (h _ (by simp)).2 hm
      · rw [List.mem_singleton] at hm
        exact absurd hm (by decide)
    refine ⟨(entryPretty (k, v) ++ [',']) :: Ls, ?_, by simp [hLen], ?_⟩
    · rw [entriesPretty]
      have hsh : entryPretty (k, v) ++ ',' :: '\n' :: entriesPretty ((qk, qv) :: qs)
            ++ '\n' :: ['}']
          = (entryPretty (k, v) ++ [','])
            ++ '\n' :: (entriesPretty ((qk, qv) :: qs) ++ '\n' :: ['}']) := by
        simp
      rw [hsh, linesOf_append_nl _ _ hnl2, hEq]
      simp
    · intro l hl
      rcases List.mem_cons.mp hl with rfl | hl
      · exact entryPretty_take4 (k, v) [',']
      · exact hAll l hl

/-! ### Reconstruction lemmas -/

theorem entries_foldl_setitem {K V : Type} [DecidableEq K] :
    ∀ (pairs : List (K × V)) (acc : IndexedOrderedDict K V),
      (pairs.foldl (fun a p => IndexedOrderedDict.setitem a p.1 p.2) acc).entries
        = pairs.foldl (fun es p => IndexedOrderedDict.odSet p.1 p.2 es) acc.entries := by
  intro pairs
  induction pairs with
  | nil => intro acc; rfl
  | cons p rest ih =>
    intro acc
    rw [List.foldl_cons, List.foldl_cons, ih]
    rfl

theorem map_keyStr_id {V : Type} :
    ∀ es : List (PyVal × V), (∀ p ∈ es, (p.1).isStr = true) →
      es.map (fun p => (PyVal.vStr (keyStr p.1), p.2)) = es := by
  intro es
  induction es with
  | nil => intro _; rfl
  | cons p rest ih =>
    intro h
    rcases p with ⟨k, v⟩
    have hp := h (k, v) (by simp)
    cases k with
    | vStr s =>
      rw [List.map_cons, ih (fun q hq => h q (by simp [hq]))]
      rfl
    | vNone => simp [PyVal.isStr] at hp
    | vBool b => simp [PyVal.isStr] at hp
    | vInt n => simp [PyVal.isStr] at hp

theorem init_fresh_entries {V : Type} (pairs : List (PyVal × V)) (dc : V → V)
    (hdc : ∀ v, dc v = v)
    (hstr : ∀ p ∈ pairs, (p.1).isStr = true)
    (hnd : (pairs.map Prod.fst).Nodup) :
    (ParamDict.init pairs true dc).2 = .ok () ∧
    (ParamDict.init pairs true dc).1.entries = pairs := by
  have h := ParamDict.update_fresh_foldl pairs IndexedOrderedDict.empty
    ParamDict.OVERWRITE true dc hstr hnd (fun p _ => rfl)
  constructor
  · rw [ParamDict.init, h]
  · rw [ParamDict.init, h]
    have hfun : (fun (acc : ParamDict V) (p : PyVal × V) =>
          IndexedOrderedDict.setitem acc p.1 (if true then dc p.2 else p.2))
        = fun acc p => IndexedOrderedDict.setitem acc p.1 p.2 := by
      funext acc p
      rw [if_pos rfl, hdc]
    rw [hfun, entries_foldl_setitem,
      IndexedOrderedDict.foldl_odSet_fresh pairs
        (IndexedOrderedDict.empty : ParamDict V).entries (fun p _ => rfl) hnd]
    simp [IndexedOrderedDict.empty]

end Triad

/-! ## Claim theorems -/

namespace Triad

open IndexedOrderedDict

/-- C1: the spec's index-cache consistency invariant ("whenever the dirty flag
is clear, `_index_key` is the insertion-ordered key sequence and `_key_index`
its inverse") is violated by a reachable state: starting from an empty map,
`d["a"] = 1; d["a"] = 2` leaves `_need_reindex = False` (because
`__setitem__` overwrites the flag with `key not in self`) while the caches
are still the initial empty ones, so `get_key_by_index(0)` raises
`IndexError` and `index_of_key("a")` raises `KeyError` on a one-entry map.
This is evidence of a code bug: the assignment `self._need_reindex = key not
in self` clears a stale flag instead of leaving it set. -/
theorem C1_index_cache_invariant_code_bug :
    exSetTwice.need_reindex = false ∧
    keys exSetTwice = ["a"] ∧
    exSetTwice.index_key = [] ∧
    ¬ indexConsistent exSetTwice ∧
    (get_key_by_index exSetTwice 0).2 = .error .indexOutOfRange ∧
    (index_of_key exSetTwice "a").2 = .error .keyNotFound := by
  refine ⟨rfl, rfl, rfl, ?_, rfl, rfl⟩
  intro h
  have h2 := (h rfl).1
  exact absurd h2 (by decide)

/-- C2: for every map and key, `__setitem__` sets the dirty flag to exactly
"the key was absent before the call" (so assignment to a present key clears
it whatever its prior value) and leaves both cached index lists untouched. -/
theorem C2_setitem_flag_and_caches {K V : Type} [DecidableEq K]
    (d : IndexedOrderedDict K V) (k : K) (v : V) :
    (setitem d k v).need_reindex = !(containsKey d k) ∧
    (setitem d k v).index_key = d.index_key ∧
    (setitem d k v).key_index = d.key_index ∧
    (containsKey d k = true → (setitem d k v).need_reindex = false) :=
  ⟨rfl, rfl, rfl, fun h => by simp [setitem, h]⟩

/-- C2 witness: the flag/cache equations of `C2_setitem_flag_and_caches` at
the concrete one-entry map and its present key. -/
theorem C2_witness :
    (setitem exOne "a" (5 : Int)).need_reindex = !(containsKey exOne "a") ∧
    (setitem exOne "a" (5 : Int)).index_key = exOne.index_key ∧
    (setitem exOne "a" (5 : Int)).key_index = exOne.key_index ∧
    (containsKey exOne "a" = true → (setitem exOne "a" (5 : Int)).need_reindex = false) :=
  C2_setitem_flag_and_caches exOne "a" 5

/-- C4 counterexample: with the unsupported policy value `3` and a source
whose key is absent, `update` does not fail with `InvalidArgument` as the
claim demands — it succeeds and inserts the pair (the `k not in self` half
of the first guard fires before the policy is ever inspected). -/
theorem C4_counterexample :
    (ParamDict.update (empty : ParamDict PyVal)
        [(PyVal.vStr "a", PyVal.vInt 1)] 3 true id).2 = .ok () ∧
    (ParamDict.update (empty : ParamDict PyVal)
        [(PyVal.vStr "a", PyVal.vInt 1)] 3 true id).1.entries
      = [(PyVal.vStr "a", PyVal.vInt 1)] :=
  ⟨rfl, rfl⟩

/-- C4 (amended): with an `on_duplicate` value that is none of `OVERWRITE`,
`THROW` and `IGNORE`, `update` fails with `InvalidArgument` only at the first
pair whose key is already present (earlier pairs already applied); a pair
with an absent key is inserted regardless of the policy value, so a call all
of whose keys are fresh succeeds completely. -/
theorem C4_amended_invalid_policy {V : Type} (d : ParamDict V) (k : PyVal) (v : V)
    (rest pairs : List (PyVal × V)) (dup : Int) (deep : Bool) (dc : V → V)
    (hdup : dup ≠ 0 ∧ dup ≠ 1 ∧ dup ≠ 2) (hk : k.isStr = true)
    (hstr : ∀ p ∈ pairs, (p.1).isStr = true)
    (hnd : (pairs.map Prod.fst).Nodup)
    (habs : ∀ p ∈ pairs, containsKey d p.1 = false) :
    (ParamDict.update d ((k, v) :: rest) dup deep dc
       = if containsKey d k
         then (d, .error .invalidArgument)
         else ParamDict.update (setitem d k (if deep then dc v else v)) rest dup deep dc) ∧
    (ParamDict.update d pairs dup deep dc
       = (pairs.foldl
            (fun acc p => setitem acc p.1 (if deep then dc p.2 else p.2)) d,
          .ok ())) := by
  constructor
  · by_cases hp : containsKey d k
    · rw [if_pos hp]
      exact ParamDict.update_cons_present_invalid d k v rest dup deep dc hp
        hdup.1 hdup.2.1 hdup.2.2
    · rw [if_neg hp]
      exact ParamDict.update_cons_absent d k v rest dup deep dc hk
        (Bool.not_eq_true _ ▸ hp)
  · exact ParamDict.update_fresh_foldl pairs d dup deep dc hstr hnd habs

/-- C4 witness: the amended statement at the concrete map `{"a":1,"b":2}`,
policy value `7`, a present head key and a fresh batch. -/
theorem C4_witness :
    (ParamDict.update exPD [(PyVal.vStr "a", PyVal.vInt 9)] 7 false id
       = if containsKey exPD (PyVal.vStr "a")
         then (exPD, .error .invalidArgument)
         else ParamDict.update
                (setitem exPD (PyVal.vStr "a")
                  (if false then id (PyVal.vInt 9) else PyVal.vInt 9))
                [] 7 false id) ∧
    (ParamDict.update exPD [(PyVal.vStr "z", PyVal.vInt 1)] 7 false id
       = ([(PyVal.vStr "z", PyVal.vInt 1)].foldl
            (fun acc p => setitem acc p.1 (if false then id p.2 else p.2)) exPD,
          .ok ())) :=
  C4_amended_invalid_policy exPD (PyVal.vStr "a") (PyVal.vInt 9)
    [] [(PyVal.vStr "z", PyVal.vInt 1)] 7 false id
    (by decide) rfl (by decide) (by decide) (by decide)

/-- C5: inserting a non-string key into a `ParamDict` fails (with the failure
the spec's taxonomy files under `TypeError`: the `assert isinstance(key,
str)`) and leaves the state completely unchanged — directly via
`__setitem__`, via an `update` step that attempts the insertion, and via
construction. -/
theorem C5_nonstring_key {V : Type} (d : ParamDict V) (k : PyVal) (v : V)
    (hk : k.isStr = false) :
    ParamDict.setitem d k v = (d, .error .typeError) ∧
    (∀ (rest : List (PyVal × V)) (dup : Int) (deep : Bool) (dc : V → V),
      (dup = 0 ∨ containsKey d k = false) →
      ParamDict.update d ((k, v) :: rest) dup deep dc = (d, .error .typeError)) ∧
    (∀ (rest : List (PyVal × V)) (deep : Bool) (dc : V → V),
      ParamDict.init ((k, v) :: rest) deep dc
        = ((empty : ParamDict V), .error .typeError)) := by
  refine ⟨?_, ?_, ?_⟩
  · simp [ParamDict.setitem, hk]
  · intro rest dup deep dc hc
    exact ParamDict.update_cons_nonstr d k v rest dup deep dc hk hc
  · intro rest deep dc
    exact ParamDict.update_cons_nonstr empty k v rest 0 deep dc hk (Or.inl rfl)

/-- C5 witness: insertion of the integer key `5` into `{"a":1,"b":2}` fails
with the state unchanged, on all three paths. -/
theorem C5_witness :
    ParamDict.setitem exPD (PyVal.vInt 5) PyVal.vNone = (exPD, .error .typeError) ∧
    (∀ (rest : List (PyVal × PyVal)) (dup : Int) (deep : Bool) (dc : PyVal → PyVal),
      (dup = 0 ∨ containsKey exPD (PyVal.vInt 5) = false) →
      ParamDict.update exPD ((PyVal.vInt 5, PyVal.vNone) :: rest) dup deep dc
        = (exPD, .error .typeError)) ∧
    (∀ (rest : List (PyVal × PyVal)) (deep : Bool) (dc : PyVal → PyVal),
      ParamDict.init ((PyVal.vInt 5, PyVal.vNone) :: rest) deep dc
        = ((empty : ParamDict PyVal), .error .typeError)) :=
  C5_nonstring_key exPD (PyVal.vInt 5) PyVal.vNone rfl

/-- C6 counterexample: on the one-entry map, the negative index `-1` is
outside `[0, 1)` yet all three positional accessors succeed (Python list
subscription counts negative indices from the end), contradicting the claim
that every negative index fails with `IndexOutOfRange`. -/
theorem C6_counterexample :
    (get_key_by_index exOne (-1)).2 = .ok "a" ∧
    (get_value_by_index exOne (-1)).2 = .ok 1 ∧
    (get_item_by_index exOne (-1)).2 = .ok ("a", 1) :=
  ⟨rfl, rfl, rfl⟩

/-- C6 (amended): with `m` the length of the (rebuilt) index list — which
equals the map's size whenever the index is actually stale, and in every
cache-consistent state — the three positional accessors fail with
`IndexOutOfRange` exactly outside `[-m, m)`; an index in `[-m, -1]` behaves
as the index `m + i` counted from the start. -/
theorem C6_amended_index_range {K V : Type} [DecidableEq K]
    (d : IndexedOrderedDict K V) (i : Int)
    (hout : i < -(((build_index d).index_key.length : Int))
          ∨ (((build_index d).index_key.length : Int)) ≤ i) :
    ((get_key_by_index d i).2 = .error .indexOutOfRange ∧
     (get_value_by_index d i).2 = .error .indexOutOfRange ∧
     (get_item_by_index d i).2 = .error .indexOutOfRange) ∧
    (d.need_reindex = true → (build_index d).index_key.length = d.entries.length) ∧
    (indexConsistent d → d.need_reindex = false →
      (build_index d).index_key.length = d.entries.length) ∧
    (∀ j : Int, -(((build_index d).index_key.length : Int)) ≤ j → j < 0 →
      (get_key_by_index d j).2
        = (get_key_by_index d (j + ((build_index d).index_key.length : Int))).2) := by
  have hk : pyListGet (build_index d).index_key i = .error .indexOutOfRange :=
    pyListGet_oob _ _ hout
  refine ⟨⟨?_, ?_, ?_⟩, fun h => length_index_key_build d h, ?_, ?_⟩
  · simp [get_key_by_index, hk]
  · simp [get_value_by_index, get_key_by_index, hk]
  · simp [get_item_by_index, get_key_by_index, hk]
  · intro hcon hflag
    rw [build_index, hflag, if_neg (by simp), (hcon hflag).1, keys, List.length_map]
  · intro j h0 h1
    simp [get_key_by_index, pyListGet_neg _ j h0 h1]

/-- C6 witness: the amended range check at the one-entry map, the
out-of-range index `5`, and the in-range negative index `-1`. -/
theorem C6_witness :
    (((get_key_by_index exOne 5).2 = .error .indexOutOfRange ∧
      (get_value_by_index exOne 5).2 = .error .indexOutOfRange ∧
      (get_item_by_index exOne 5).2 = .error .indexOutOfRange) ∧
     (exOne.need_reindex = true →
       (build_index exOne).index_key.length = exOne.entries.length) ∧
     (indexConsistent exOne → exOne.need_reindex = false →
       (build_index exOne).index_key.length = exOne.entries.length) ∧
     (∀ j : Int, -(((build_index exOne).index_key.length : Int)) ≤ j → j < 0 →
       (get_key_by_index exOne j).2
         = (get_key_by_index exOne (j + ((build_index exOne).index_key.length : Int))).2)) :=
  C6_amended_index_range exOne 5 (by decide)

/-- C7: `ParamDict.get` fails with the spec's `InvalidArgument` whenever
`default` is the null sentinel (before any lookup); otherwise a present key's
stored value is handed to the `as_type` collaborator with target
`type(default)` (so a coercion failure propagates as `TypeError`), and an
absent key returns `default` unchanged. -/
theorem C7_typed_get (as_type : PyVal → PyType → Except Err PyVal)
    (d : ParamDict PyVal) (k default : PyVal) :
    (default = PyVal.vNone →
      ParamDict.get as_type d k default = .error .invalidArgument) ∧
    (default ≠ PyVal.vNone → ∀ v, lookup d k = some v →
      ParamDict.get as_type d k default = as_type v default.typeOf) ∧
    (default ≠ PyVal.vNone → lookup d k = none →
      ParamDict.get as_type d k default = .ok default) := by
  refine ⟨?_, ?_, ?_⟩
  · intro h
    simp [ParamDict.get, ParamDict.assert_arg_not_none, h]
  · intro h v hv
    simp [ParamDict.get, ParamDict.assert_arg_not_none, h, hv]
  · intro h hv
    simp [ParamDict.get, ParamDict.assert_arg_not_none, h, hv]

/-- C7 witness: the three branches of `C7_typed_get` at the concrete map
`{"a":1,"b":2}` and the exact-type coercion collaborator. -/
theorem C7_witness :
    ParamDict.get exactCoerce exPD (PyVal.vStr "a") PyVal.vNone
      = .error .invalidArgument ∧
    ParamDict.get exactCoerce exPD (PyVal.vStr "a") (PyVal.vInt 0)
      = exactCoerce (PyVal.vInt 1) (PyVal.vInt 0).typeOf ∧
    ParamDict.get exactCoerce exPD (PyVal.vStr "z") (PyVal.vInt 7)
      = .ok (PyVal.vInt 7) :=
  ⟨(C7_typed_get exactCoerce exPD (PyVal.vStr "a") PyVal.vNone).1 rfl,
   (C7_typed_get exactCoerce exPD (PyVal.vStr "a") (PyVal.vInt 0)).2.1
     (by decide) (PyVal.vInt 1) rfl,
   (C7_typed_get exactCoerce exPD (PyVal.vStr "z") (PyVal.vInt 7)).2.2
     (by decide) rfl⟩

/-- C3: merge-policy semantics of `update` over a normalized source pair
sequence of string keys.  Pairs are processed in order, each checked against
the state at its moment of processing: `OVERWRITE` always sets (the value
deep-copied first when `deep`), `IGNORE` sets exactly when the key is absent
and otherwise skips, and `THROW` sets an absent key but fails with
`DuplicateKey` at the first present one — returning the state as mutated by
the earlier pairs of the same call.  Globally, `OVERWRITE` realizes the fold
of plain insertions. -/
theorem C3_update_policies {V : Type} (d : ParamDict V) (k : PyVal) (v : V)
    (rest pairs : List (PyVal × V)) (deep : Bool) (dc : V → V)
    (hk : k.isStr = true) (hstr : ∀ p ∈ pairs, (p.1).isStr = true) :
    (∀ dup : Int, ParamDict.update d [] dup deep dc = (d, .ok ())) ∧
    (ParamDict.update d ((k, v) :: rest) ParamDict.OVERWRITE deep dc
       = ParamDict.update (setitem d k (if deep then dc v else v)) rest
           ParamDict.OVERWRITE deep dc) ∧
    (ParamDict.update d ((k, v) :: rest) ParamDict.IGNORE deep dc
       = if containsKey d k
         then ParamDict.update d rest ParamDict.IGNORE deep dc
         else ParamDict.update (setitem d k (if deep then dc v else v)) rest
                ParamDict.IGNORE deep dc) ∧
    (ParamDict.update d ((k, v) :: rest) ParamDict.THROW deep dc
       = if containsKey d k
         then (d, .error .duplicateKey)
         else ParamDict.update (setitem d k (if deep then dc v else v)) rest
                ParamDict.THROW deep dc) ∧
    (ParamDict.update d pairs ParamDict.OVERWRITE deep dc
       = (pairs.foldl
            (fun acc p => setitem acc p.1 (if deep then dc p.2 else p.2)) d,
          .ok ())) := by
  refine ⟨fun dup => rfl, ?_, ?_, ?_, ?_⟩
  · exact ParamDict.update_cons_overwrite d k v rest deep dc hk
  · by_cases hp : containsKey d k
    · rw [if_pos hp]
      exact ParamDict.update_cons_present_ignore d k v rest deep dc hp
    · rw [if_neg hp]
      exact ParamDict.update_cons_absent d k v rest _ deep dc hk
        (Bool.not_eq_true _ ▸ hp)
  · by_cases hp : containsKey d k
    · rw [if_pos hp]
      exact ParamDict.update_cons_present_throw d k v rest deep dc hp
    · rw [if_neg hp]
      exact ParamDict.update_cons_absent d k v rest _ deep dc hk
        (Bool.not_eq_true _ ▸ hp)
  · exact ParamDict.update_overwrite_foldl pairs d deep dc hstr

/-- C3 witness: the policy equations at the concrete base `{"a":1,"b":2}`
with the head pair `("b", 9)` (a present key), tail `[("c", 3)]`, and the
batch `[("b",9),("c",3)]` for the `OVERWRITE` fold. -/
theorem C3_witness :
    (∀ dup : Int, ParamDict.update exPD [] dup true id = (exPD, .ok ())) ∧
    (ParamDict.update exPD
        ((PyVal.vStr "b", PyVal.vInt 9) :: [(PyVal.vStr "c", PyVal.vInt 3)])
        ParamDict.OVERWRITE true id
       = ParamDict.update
           (setitem exPD (PyVal.vStr "b")
             (if true then id (PyVal.vInt 9) else PyVal.vInt 9))
           [(PyVal.vStr "c", PyVal.vInt 3)] ParamDict.OVERWRITE true id) ∧
    (ParamDict.update exPD
        ((PyVal.vStr "b", PyVal.vInt 9) :: [(PyVal.vStr "c", PyVal.vInt 3)])
        ParamDict.IGNORE true id
       = if containsKey exPD (PyVal.vStr "b")
         then ParamDict.update exPD [(PyVal.vStr "c", PyVal.vInt 3)]
                ParamDict.IGNORE true id
         else ParamDict.update
                (setitem exPD (PyVal.vStr "b")
                  (if true then id (PyVal.vInt 9) else PyVal.vInt 9))
                [(PyVal.vStr "c", PyVal.vInt 3)] ParamDict.IGNORE true id) ∧
    (ParamDict.update exPD
        ((PyVal.vStr "b", PyVal.vInt 9) :: [(PyVal.vStr "c", PyVal.vInt 3)])
        ParamDict.THROW true id
       = if containsKey exPD (PyVal.vStr "b")
         then (exPD, .error .duplicateKey)
         else ParamDict.update
                (setitem exPD (PyVal.vStr "b")
                  (if true then id (PyVal.vInt 9) else PyVal.vInt 9))
                [(PyVal.vStr "c", PyVal.vInt 3)] ParamDict.THROW true id) ∧
    (ParamDict.update exPD
        [(PyVal.vStr "b", PyVal.vInt 9), (PyVal.vStr "c", PyVal.vInt 3)]
        ParamDict.OVERWRITE true id
       = ([(PyVal.vStr "b", PyVal.vInt 9), (PyVal.vStr "c", PyVal.vInt 3)].foldl
            (fun acc p => setitem acc p.1 (if true then id p.2 else p.2)) exPD,
          .ok ())) :=
  C3_update_policies exPD (PyVal.vStr "b") (PyVal.vInt 9)
    [(PyVal.vStr "c", PyVal.vInt 3)]
    [(PyVal.vStr "b", PyVal.vInt 9), (PyVal.vStr "c", PyVal.vInt 3)]
    true id rfl (by decide)

/-- C8: `equals` with `with_order` compares another ordered map's item
sequence for equality (true exactly on the same pairs in the same order);
without `with_order` it is plain dict equality (true exactly when the two
key-to-value relations agree on every key).  The map built from
`[("a",1),("b",2)]` is order-sensitive-equal to itself but not to its
`move_to_end("a")` variant, while order-insensitive equality holds in both
cases. -/
theorem C8_equals_modes {K V : Type} [DecidableEq K] [DecidableEq V]
    (d : IndexedOrderedDict K V) (ps : List (K × V))
    (hd : (d.entries.map Prod.fst).Nodup) (hp : (ps.map Prod.fst).Nodup) :
    (equals d (.omap ps) true = true ↔ d.entries = ps) ∧
    (equals d (.omap ps) false = true ↔
      ∀ q, alookup q d.entries = alookup q ps) ∧
    (equals exAB (.omap exAB.entries) true = true ∧
     equals exAB (.omap exABmoved.entries) true = false ∧
     equals exAB (.omap exABmoved.entries) false = true ∧
     equals exABmoved (.omap exAB.entries) false = true) := by
  refine ⟨?_, ?_, by decide, by decide, by decide, by decide⟩
  · simp [equals]
  · rw [equals]
    simp only [Bool.false_eq_true, if_false]
    rw [odFromPairs_of_nodup ps hp]
    exact dictEqb_iff hd hp

/-- C8 witness: both equivalences of `C8_equals_modes` at the concrete
`[("a",1),("b",2)]` map compared against its own item sequence. -/
theorem C8_witness :
    (equals exAB (.omap exAB.entries) true = true ↔ exAB.entries = exAB.entries) ∧
    (equals exAB (.omap exAB.entries) false = true ↔
      ∀ q, alookup q exAB.entries = alookup q exAB.entries) ∧
    (equals exAB (.omap exAB.entries) true = true ∧
     equals exAB (.omap exABmoved.entries) true = false ∧
     equals exAB (.omap exABmoved.entries) false = true ∧
     equals exABmoved (.omap exAB.entries) false = true) :=
  C8_equals_modes exAB exAB.entries (by decide) (by decide)

/-- C9: JSON round-trip.  For a `ParamDict` of JSON-representable scalar
values (string keys; strings in the printable-ASCII range, where the model
reproduces `json.dumps` exactly; a deep-copier returning equal values, as
`copy.deepcopy` does on such values): the compact output of `to_json_str`
parses back through the adapter's JSON-object ingestion to exactly the
insertion-ordered key/value pairs; constructing a new `ParamDict` from those
pairs succeeds and yields a map order-sensitive-equal to the original; the
compact form contains no whitespace character at all when the strings contain
none (no extraneous whitespace); and the pretty form parses back identically
and consists of a `{` line, one line per entry indented by exactly four
spaces followed by the quoted key, and a closing `}` line — both forms
preserving insertion order of the keys. -/
theorem C9_json_roundtrip (d : ParamDict JVal) (dc : JVal → JVal)
    (hkeys : ∀ p ∈ d.entries, (p.1).isStr = true)
    (hnd : (d.entries.map Prod.fst).Nodup)
    (hsafe : ∀ p ∈ d.entries, strSafe (keyStr p.1) = true ∧ jvalSafe p.2 = true)
    (hdc : ∀ v, dc v = v) :
    (loadsObj (ParamDict.to_json_str d false)
       = some (d.entries.map (fun p => (keyStr p.1, p.2)))) ∧
    (loadsObj (ParamDict.to_json_str d true)
       = some (d.entries.map (fun p => (keyStr p.1, p.2)))) ∧
    ((ParamDict.init
        ((d.entries.map (fun p => (keyStr p.1, p.2))).map
          (fun q => (PyVal.vStr q.1, q.2))) true dc).2 = .ok () ∧
     (ParamDict.init
        ((d.entries.map (fun p => (keyStr p.1, p.2))).map
          (fun q => (PyVal.vStr q.1, q.2))) true dc).1.entries = d.entries ∧
     equals
       (ParamDict.init
          ((d.entries.map (fun p => (keyStr p.1, p.2))).map
            (fun q => (PyVal.vStr q.1, q.2))) true dc).1
       (.omap d.entries) true = true) ∧
    ((∀ p ∈ d.entries, strNoWs (keyStr p.1) = true ∧ jvalNoWs p.2 = true) →
      ∀ c ∈ (ParamDict.to_json_str d false).toList, isWsCh c = false) ∧
    (d.entries ≠ [] →
      ∃ Ls, linesOf (ParamDict.to_json_str d true).toList
          = ['{'] :: (Ls ++ [['}']])
        ∧ Ls.length = d.entries.length
        ∧ ∀ l ∈ Ls, l.take 4 = [' ', ' ', ' ', ' '] ∧ l.get? 4 = some '"') := by
  have hpairs : (d.entries.map (fun p => (keyStr p.1, p.2))).map
      (fun q => (PyVal.vStr q.1, q.2)) = d.entries := by
    rw [List.map_map]
    exact map_keyStr_id d.entries hkeys
  have hcompact : ParamDict.to_json_str d false
      = String.mk (dumpsCompact (d.entries.map (fun p => (keyStr p.1, p.2)))) := by
    rw [ParamDict.to_json_str]
    simp
  have hpretty : ParamDict.to_json_str d true
      = String.mk (dumpsPretty (d.entries.map (fun p => (keyStr p.1, p.2)))) := by
    rw [ParamDict.to_json_str]
    simp
  refine ⟨?_, ?_, ?_, ?_, ?_⟩
  · rw [hcompact, loadsObj_dumpsCompact]
  · rw [hpretty, loadsObj_dumpsPretty]
  · rw [hpairs]
    obtain ⟨h1, h2⟩ := init_fresh_entries d.entries dc hdc hkeys hnd
    refine ⟨h1, h2, ?_⟩
    rw [equals]
    simp [h2]
  · intro hnws c hc
    rw [hcompact, String_toList_mk] at hc
    refine dumpsCompact_no_ws _ ?_ c hc
    intro p hp
    obtain ⟨q, hq, rfl⟩ := List.mem_map.mp hp
    exact ⟨(hnws q hq).1, (hnws q hq).2⟩
  · intro hne
    rcases hps : d.entries.map (fun p => (keyStr p.1, p.2)) with _ | ⟨⟨k, v⟩, qs⟩
    · exact absurd (List.map_eq_nil_iff.mp hps) hne
    · have hsafePs : ∀ p ∈ (k, v) :: qs, strSafe p.1 = true ∧ jvalSafe p.2 = true := by
        intro p hp
        rw [← hps] at hp
        obtain ⟨q, hq, rfl⟩ := List.mem_map.mp hp
        exact ⟨(hsafe q hq).1, (hsafe q hq).2⟩
      obtain ⟨Ls, hEq, hLen, hAll⟩ := linesOf_entriesPretty qs k v hsafePs
      refine ⟨Ls, ?_, ?_, hAll⟩
      · rw [hpretty, String_toList_mk, hps]
        have hdp : dumpsPretty ((k, v) :: qs)
            = '{' :: '\n' :: (entriesPretty ((k, v) :: qs) ++ '\n' :: ['}']) := rfl
        rw [hdp]
        have hsh : ('{' :: '\n' :: (entriesPretty ((k, v) :: qs) ++ '\n' :: ['}']))
            = ['{'] ++ '\n' :: (entriesPretty ((k, v) :: qs) ++ '\n' :: ['}']) := rfl
        rw [hsh, linesOf_append_nl _ _ (by decide), hEq]
      · rw [hLen]
        have hL := congrArg List.length hps
        simp only [List.length_map, List.length_cons] at hL
        omega

/-- C9 witness: the round-trip statement at the concrete map
`{"a": 12, "b": "x\"y", "c": -3, "d": null}` with `copy.deepcopy` modelled by
the identity. -/
theorem C9_witness :
    (loadsObj (ParamDict.to_json_str exJD false)
       = some (exJD.entries.map (fun p => (keyStr p.1, p.2)))) ∧
    (loadsObj (ParamDict.to_json_str exJD true)
       = some (exJD.entries.map (fun p => (keyStr p.1, p.2)))) ∧
    ((ParamDict.init
        ((exJD.entries.map (fun p => (keyStr p.1, p.2))).map
          (fun q => (PyVal.vStr q.1, q.2))) true id).2 = .ok () ∧
     (ParamDict.init
        ((exJD.entries.map (fun p => (keyStr p.1, p.2))).map
          (fun q => (PyVal.vStr q.1, q.2))) true id).1.entries = exJD.entries ∧
     equals
       (ParamDict.init
          ((exJD.entries.map (fun p => (keyStr p.1, p.2))).map
            (fun q => (PyVal.vStr q.1, q.2))) true id).1
       (.omap exJD.entries) true = true) ∧
    ((∀ p ∈ exJD.entries, strNoWs (keyStr p.1) = true ∧ jvalNoWs p.2 = true) →
      ∀ c ∈ (ParamDict.to_json_str exJD false).toList, isWsCh c = false) ∧
    (exJD.entries ≠ [] →
      ∃ Ls, linesOf (ParamDict.to_json_str exJD true).toList
          = ['{'] :: (Ls ++ [['}']])
        ∧ Ls.length = exJD.entries.length
        ∧ ∀ l ∈ Ls, l.take 4 = [' ', ' ', ' ', ' '] ∧ l.get? 4 = some '"') :=
  C9_json_roundtrip exJD id (by decide) (by decide) (by decide) (fun v => rfl)

/-- C10 counterexample: with entry values modelled as references to mutable
objects, the clone of the one-entry map holding object `0` holds that very
object `0` itself — `copy` (via `OrderedDict.copy`) is a shallow copy, so the
clone's entry values are not deep copies of the originals as the claim
states. -/
theorem C10_counterexample :
    ¬ valuesDeeplyCopied exRefMap (copy exRefMap) := by
  intro h
  exact h 0 (by decide) (by decide)

/-- C10 (amended): `copy` returns a clone with the same keys in the same
order whose entry values are the same objects as the original's (a shallow
copy, not deep copies), whose cached index lists equal the original's as-is,
and whose dirty flag equals the original's; no index rebuild is triggered on
either side (the flag and caches are preserved verbatim even when stale). -/
theorem C10_amended_copy_shallow {K V : Type} (d : IndexedOrderedDict K V) :
    (copy d).entries = d.entries ∧
    (copy d).need_reindex = d.need_reindex ∧
    (copy d).index_key = d.index_key ∧
    (copy d).key_index = d.key_index :=
  ⟨rfl, rfl, rfl, rfl⟩

end Triad


